import Mathlib

/-!
A shallow embedding of femtojpeg.c (baseline JPEG decoder)

This file translates the C source of femtojpeg (femtojpeg.c) into Lean
definitions, and proves properties of the decoder against them.

Modelling conventions:
* Machine integers are modelled as `Nat` (for the unsigned types
  `uint8_t`, `uint16_t`, `uint32_t`, `size_t`) and `Int` (for `int`,
  `int16_t`, `long`), with truncation made explicit: `% 65536` for
  `uint16_t` stores, `% 4294967296` for the 32-bit bit accumulator, and
  `i16` for stores into `int16_t` lvalues.
* The input buffer is a `List Nat`; reading a byte takes the value
  `% 256`, encoding the `uint8_t` element type of the C array.
* C `while` loops whose bound is not structural take an explicit fuel
  argument; fuel is always instantiated large enough that exhaustion is
  unreachable for the executions the theorems speak about (matching the
  C loops, which terminate for the same reasons).
* Arithmetic right shifts of possibly negative C values are Lean `Int`
  euclidean division by a power of two (floor division), matching the
  arithmetic-shift behaviour the code relies on.
-/

set_option maxRecDepth 10000

/-- Truncation of an integer into a C `int16_t` (two's complement). -/
def i16 (x : Int) : Int := (x + 32768) % 65536 - 32768

/-- Truncation into `uint16_t`. -/
def u16 (x : Nat) : Nat := x % 65536

/-- Truncation into the 32-bit bit accumulator. -/
def u32 (x : Nat) : Nat := x % 4294967296

/-- Zigzag order table `zag` from femtojpeg.c. -/
def zag : List Nat :=
  [ 0,  1,  8, 16,  9,  2,  3, 10,
   17, 24, 32, 25, 18, 11,  4,  5,
   12, 19, 26, 33, 40, 48, 41, 34,
   27, 20, 13,  6,  7, 14, 21, 28,
   35, 42, 49, 56, 57, 50, 43, 36,
   29, 22, 15, 23, 30, 37, 44, 51,
   58, 59, 52, 45, 38, 31, 39, 46,
   53, 60, 61, 54, 47, 55, 62, 63]

/-- Winograd IDCT scale factor table `wquant` from femtojpeg.c. -/
def wquant : List Nat :=
  [128, 178, 178, 167, 246, 167, 151, 232,
   232, 151, 128, 209, 219, 209, 128, 101,
   178, 197, 197, 178, 101,  69, 139, 167,
   177, 167, 139,  69,  35,  96, 131, 151,
   151, 131,  96,  35,  49,  91, 118, 128,
   118,  91,  49,  46,  81, 101, 101,  81,
    46,  42,  69,  79,  69,  42,  35,  54,
    54,  35,  28,  37,  28,  19,  19,  10]

/-- A Huffman table row `(min_code, max_code, val_ptr)`; the C struct
`huff_table_t` keeps three arrays of 16, modelled as one list of 16
triples. -/
abbrev HuffRow := Nat × Nat × Nat

/-- The decoder context `fjctx_t` from femtojpeg.c.  All fields carry the
zero values that `memset(&ctx, 0, sizeof(ctx))` gives them. -/
structure Fjctx where
  data : List Nat := []
  pos : Nat := 0
  bits : Nat := 0
  nbits : Int := 0
  width : Nat := 0
  height : Nat := 0
  ncomp : Nat := 0
  hsamp : List Nat := [0, 0, 0]
  vsamp : List Nat := [0, 0, 0]
  comp_qtab : List Nat := [0, 0, 0]
  comp_dc : List Nat := [0, 0, 0]
  comp_ac : List Nat := [0, 0, 0]
  last_dc : List Int := [0, 0, 0]
  mcu_w : Nat := 0
  mcu_h : Nat := 0
  mcus_x : Nat := 0
  mcus_y : Nat := 0
  qtab : List (List Int) := [List.replicate 64 0, List.replicate 64 0]
  huff : List (List HuffRow) := List.replicate 4 (List.replicate 16 (0, 0, 0))
  huff_val : List (List Nat) := List.replicate 4 (List.replicate 256 0)
  huff_nval : List Nat := [0, 0, 0, 0]
  restart_interval : Nat := 0
  restarts_left : Nat := 0
  next_restart : Nat := 0
  block : List Int := List.replicate 64 0
  deriving Repr, DecidableEq

/-- Fresh zero-initialised context holding the input buffer, as built at
the top of `fjpeg_decode`. -/
def initCtx (bytes : List Nat) : Fjctx := { data := bytes }

/-! ## Byte and bit reading -/

/-- C function `read_u8`: bounds-checked byte read, 0 past the end. -/
def read_u8 (c : Fjctx) : Nat × Fjctx :=
  if c.pos < c.data.length then
    (c.data.getD c.pos 0 % 256, { c with pos := c.pos + 1 })
  else (0, c)

/-- C function `read_u16`: big-endian 16-bit read. -/
def read_u16 (c : Fjctx) : Nat × Fjctx :=
  let (hi, c) := read_u8 c
  let (lo, c) := read_u8 c
  (u16 (hi * 256 + lo), c)

/-- C function `next_byte`: next entropy-coded byte, consuming `FF 00`
stuffing and pushing back two positions on `FF xx` markers. -/
def next_byte (c : Fjctx) : Nat × Fjctx :=
  let (b, c1) := read_u8 c
  if b = 255 then
    let (marker, c2) := read_u8 c1
    if marker ≠ 0 then (0, { c2 with pos := c2.pos - 2 })
    else (b, c2)
  else (b, c1)

/-- One refill step of `fill_bits`: OR the next entropy byte into the
accumulator. -/
def fillStep (c : Fjctx) : Fjctx :=
  let (b, c) := next_byte c
  { c with bits := u32 (c.bits ||| b <<< (24 - c.nbits).toNat),
           nbits := c.nbits + 8 }

/-- C function `fill_bits`, with fuel: `while (nbits <= 24) nbits += 8`
runs at most four times from any non-negative `nbits`. -/
def fillBitsGo : Nat → Fjctx → Fjctx
  | 0, c => c
  | fuel + 1, c => if c.nbits ≤ 24 then fillBitsGo fuel (fillStep c) else c

/-- C function `fill_bits`. -/
def fill_bits (c : Fjctx) : Fjctx := fillBitsGo 5 c

/-- C function `get_bits`. -/
def get_bits (c : Fjctx) (n : Nat) : Nat × Fjctx :=
  if n = 0 then (0, c)
  else
    let c := fill_bits c
    let val := u16 (c.bits >>> (32 - n))
    ((val), { c with bits := u32 (c.bits <<< n), nbits := c.nbits - n })

/-- C function `get_bit`. -/
def get_bit (c : Fjctx) : Nat × Fjctx :=
  let c := fill_bits c
  let val := (c.bits >>> 31) &&& 1
  (val, { c with bits := u32 (c.bits <<< 1), nbits := c.nbits - 1 })

/-! ## Huffman tables -/

/-- Loop body of `huff_build`: runs over the 16 length counts carrying the
running canonical `code` (a `uint16_t`) and symbol offset `j`
(a `uint8_t`), emitting one `(min_code, max_code, val_ptr)` row per
length. -/
def huffBuildGo : List Nat → Nat → Nat → List HuffRow
  | [], _, _ => []
  | cnt :: rest, code, j =>
    if cnt = 0 then
      (0, 65535, 0) :: huffBuildGo rest (u16 (code <<< 1)) j
    else
      (code, u16 (code + cnt - 1), j) ::
        huffBuildGo rest (u16 (u16 (code + cnt) <<< 1)) ((j + cnt) % 256)

/-- C function `huff_build`. -/
def huff_build (counts : List Nat) : List HuffRow := huffBuildGo counts 0 0

/-- Loop of `huff_decode`: walk the 16 rows, growing the code by one bit
per row; on fall-through the C function returns 0. -/
def huffDecodeGo : List HuffRow → List Nat → Nat → Fjctx → Nat × Fjctx
  | [], _, _, c => (0, c)
  | (mn, mx, vp) :: rest, syms, code, c =>
    if code ≤ mx ∧ mx ≠ 65535 then
      (syms.getD ((vp + u16 (code + 65536 - mn) % 256) % 256) 0, c)
    else
      let (b, c) := get_bit c
      huffDecodeGo rest syms (u16 (code <<< 1 ||| b)) c

/-- C function `huff_decode` for table index `table`. -/
def huff_decode (c : Fjctx) (table : Nat) : Nat × Fjctx :=
  let (b, c) := get_bit c
  huffDecodeGo (c.huff.getD table []) (c.huff_val.getD table []) b c

/-- C function `huff_extend`: JPEG sign extension of a `bits`-bit value. -/
def huff_extend (val : Nat) (bits : Nat) : Int :=
  if bits = 0 then 0
  else if val < 2 ^ (bits - 1) then (val : Int) - (2 ^ bits - 1)
  else (val : Int)

/-! ## Marker parsing -/

/-- The 64-entry quantization value read loop of `parse_dqt` (first
`for` loop): reads one value per entry, two bytes when `prec` is set,
storing each through an `int16_t`. -/
def readQuantVals : Nat → Nat → Fjctx → List Int × Fjctx
  | 0, _, c => ([], c)
  | n + 1, prec, c =>
    let (b, c) := read_u8 c
    let (v, c) :=
      if prec ≠ 0 then
        let (b2, c) := read_u8 c
        (i16 ((b * 256 + b2 : Nat) : Int), c)
      else (((b : Nat) : Int), c)
    let (vs, c) := readQuantVals n prec c
    (v :: vs, c)

/-- The Winograd pre-multiply loop of `parse_dqt` (second `for` loop):
`qtab[id][i] = (int16_t)(((long)qtab[id][i] * wquant[i] + (1 << 2)) >> 3)`.
Both 64-iteration loops write every index, so they are modelled as
whole-row maps. -/
def dqtScaleRow (vals : List Int) : List Int :=
  List.zipWith (fun v w => i16 ((v * ((w : Nat) : Int) + 4) / 8)) vals wquant

/-- Body loop of `parse_dqt` (`while (left > 0)`), with fuel: the
`uint16_t` counter `left` reaches 0 after finitely many decrements. -/
def parseDqtGo : Nat → Nat → Fjctx → Int × Fjctx
  | 0, _, c => (-1, c)
  | fuel + 1, left, c =>
    if left = 0 then (0, c)
    else
      let (info, c) := read_u8 c
      let prec := info >>> 4
      let id := info &&& 15
      if id > 1 then (-1, c)
      else
        let (vals, c) := readQuantVals 64 prec c
        let c := { c with qtab := c.qtab.set id (dqtScaleRow vals) }
        parseDqtGo fuel ((left + 65536 - (65 + if prec ≠ 0 then 64 else 0)) % 65536) c

/-- C function `parse_dqt`. -/
def parse_dqt (c : Fjctx) : Int × Fjctx :=
  let (len, c) := read_u16 c
  parseDqtGo 65536 (u16 (len + 65534)) c

/-- Fixed-count byte read loop (used for DHT counts and symbols). -/
def readBytesN : Nat → Fjctx → List Nat × Fjctx
  | 0, c => ([], c)
  | n + 1, c =>
    let (b, c) := read_u8 c
    let (bs, c) := readBytesN n c
    (b :: bs, c)

/-- One DHT table read: the body of `parse_dht`'s `while` loop, up to the
`left` bookkeeping.  The symbol read loop
`for (i = 0; i < total && i < 256; i++)` reads `min total 256` bytes into
the front of the 256-byte value array.  Returns `total` and the updated
context. -/
def dhtReadTable (c : Fjctx) : Nat × Fjctx :=
  let (info, c) := read_u8 c
  let cls := (info >>> 4) &&& 1
  let id := info &&& 1
  let table := cls * 2 + id
  let (counts, c) := readBytesN 16 c
  let total := counts.sum
  let (syms, c) := readBytesN (min total 256) c
  (total,
   { c with
     huff_val := c.huff_val.set table
       (syms ++ (c.huff_val.getD table []).drop syms.length),
     huff_nval := c.huff_nval.set table (total % 256),
     huff := c.huff.set table (huff_build counts) })

/-- Body loop of `parse_dht` (`while (left > 0)`), with fuel. -/
def parseDhtGo : Nat → Nat → Fjctx → Int × Fjctx
  | 0, _, c => (-1, c)
  | fuel + 1, left, c =>
    if left = 0 then (0, c)
    else
      let r := dhtReadTable c
      parseDhtGo fuel ((left + 65536 - u16 (17 + r.1)) % 65536) r.2

/-- C function `parse_dht`. -/
def parse_dht (c : Fjctx) : Int × Fjctx :=
  let (len, c) := read_u16 c
  parseDhtGo 65536 (u16 (len + 65534)) c

/-- Per-component read loop of `parse_sof`. -/
def readCompSpecs : Nat → Nat → Fjctx → Fjctx
  | 0, _, c => c
  | n + 1, i, c =>
    let (_, c) := read_u8 c
    let (samp, c) := read_u8 c
    let (q, c) := read_u8 c
    let c := { c with
      hsamp := c.hsamp.set i (samp >>> 4),
      vsamp := c.vsamp.set i (samp &&& 15),
      comp_qtab := c.comp_qtab.set i q }
    readCompSpecs n (i + 1) c

/-- C function `parse_sof`.  (Note: when a sampling factor is 0 the C
division computing `mcus_x`/`mcus_y` is undefined behaviour; Lean `Nat`
division by zero yields 0 there.) -/
def parse_sof (c : Fjctx) : Int × Fjctx :=
  let (_, c) := read_u16 c
  let (p, c) := read_u8 c
  if p ≠ 8 then (-1, c)
  else
    let (h, c) := read_u16 c
    let (w, c) := read_u16 c
    let (n, c) := read_u8 c
    let c := { c with height := h, width := w, ncomp := n }
    if n ≠ 1 ∧ n ≠ 3 then (-1, c)
    else
      let c := readCompSpecs n 0 c
      let c :=
        if c.ncomp = 1 then { c with mcu_w := 8, mcu_h := 8 }
        else { c with mcu_w := c.hsamp.getD 0 0 * 8, mcu_h := c.vsamp.getD 0 0 * 8 }
      let c := { c with
        mcus_x := (c.width + c.mcu_w - 1) / c.mcu_w,
        mcus_y := (c.height + c.mcu_h - 1) / c.mcu_h }
      (0, c)

/-- Per-component read loop of `parse_sos`, tracking the `uint16_t`
byte counter `left`. -/
def readScanComps : Nat → Nat → Nat → Fjctx → Nat × Fjctx
  | 0, _, left, c => (left, c)
  | n + 1, i, left, c =>
    let (_, c) := read_u8 c
    let (tab, c) := read_u8 c
    let c := { c with
      comp_dc := c.comp_dc.set i (tab >>> 4),
      comp_ac := c.comp_ac.set i (tab &&& 15) }
    readScanComps n (i + 1) ((left + 65534) % 65536) c

/-- Trailing skip loop of `parse_sos` (`while (left > 0)`), with fuel. -/
def sosSkipGo : Nat → Nat → Fjctx → Fjctx
  | 0, _, c => c
  | fuel + 1, left, c =>
    if left = 0 then c
    else
      let (_, c) := read_u8 c
      sosSkipGo fuel ((left + 65535) % 65536) c

/-- C function `parse_sos`. -/
def parse_sos (c : Fjctx) : Int × Fjctx :=
  let (len, c) := read_u16 c
  let left := u16 (len + 65534)
  let (ns, c) := read_u8 c
  let left := (left + 65535) % 65536
  let (left, c) := readScanComps ns 0 left c
  (0, sosSkipGo 65536 left c)

/-- C function `parse_dri`. -/
def parse_dri (c : Fjctx) : Int × Fjctx :=
  let (_, c) := read_u16 c
  let (ri, c) := read_u16 c
  (0, { c with restart_interval := ri })

/-- C function `skip_marker`. -/
def skip_marker (c : Fjctx) : Fjctx :=
  let (len, c) := read_u16 c
  if len ≥ 2 then { c with pos := c.pos + (len - 2) } else c

/-- The fill-byte collapse in `parse_markers`
(`do { b = read_u8(c); } while (b == 0xFF);`), with fuel. -/
def findMarkerGo : Nat → Fjctx → Nat × Fjctx
  | 0, c => (0, c)
  | fuel + 1, c =>
    let (b, c) := read_u8 c
    if b = 255 then findMarkerGo fuel c else (b, c)

/-- One dispatch of the `switch` statement in `parse_markers`: the first
component is `some r` when the C code returns with status `r`, `none`
when the loop continues scanning. -/
def handleMarker (b : Nat) (c : Fjctx) : Option Int × Fjctx :=
  if b = 0xC0 then
    let (r, c) := parse_sof c
    (if r ≠ 0 then some (-1) else none, c)
  else if b = 0xC4 then
    let (r, c) := parse_dht c
    (if r ≠ 0 then some (-1) else none, c)
  else if b = 0xDB then
    let (r, c) := parse_dqt c
    (if r ≠ 0 then some (-1) else none, c)
  else if b = 0xDD then
    let (r, c) := parse_dri c
    (if r ≠ 0 then some (-1) else none, c)
  else if b = 0xDA then
    let (r, c) := parse_sos c
    (if r ≠ 0 then some (-1) else some 0, c)
  else if b = 0xD9 then (some (-1), c)
  else if b = 0xC2 then (some (-1), c)
  else (none, skip_marker c)

/-- Main loop of `parse_markers` (`while (c->pos < c->len)`), with fuel:
each iteration advances `pos` by at least one. -/
def parseMarkersGo : Nat → Fjctx → Int × Fjctx
  | 0, c => (-1, c)
  | fuel + 1, c =>
    if c.pos < c.data.length then
      let (b, c) := read_u8 c
      if b ≠ 255 then parseMarkersGo fuel c
      else
        let (b, c) := findMarkerGo (c.data.length + 1) c
        if b = 0 then parseMarkersGo fuel c
        else
          match handleMarker b c with
          | (some r, c) => (r, c)
          | (none, c) => parseMarkersGo fuel c
    else (-1, c)

/-- C function `parse_markers`: demand SOI, then scan and dispatch
markers until SOS. -/
def parse_markers (c : Fjctx) : Int × Fjctx :=
  let (b1, c) := read_u8 c
  if b1 ≠ 255 then (-1, c)
  else
    let (b2, c) := read_u8 c
    if b2 ≠ 0xD8 then (-1, c)
    else parseMarkersGo (c.data.length + 1) c

/-! ## Winograd IDCT -/

/-- C helper `imul_362`; the inner `i16` models the `int16_t` parameter
conversion, the outer one the `int16_t` return value. -/
def imul_362 (w : Int) : Int := i16 ((i16 w * 362 + 128) / 256)

/-- C helper `imul_669`. -/
def imul_669 (w : Int) : Int := i16 ((i16 w * 669 + 128) / 256)

/-- C helper `imul_277`. -/
def imul_277 (w : Int) : Int := i16 ((i16 w * 277 + 128) / 256)

/-- C helper `imul_196`. -/
def imul_196 (w : Int) : Int := i16 ((i16 w * 196 + 128) / 256)

/-- C function `clamp8`: saturate to 0..255. -/
def clamp8 (x : Int) : Nat :=
  if x < 0 then 0 else if x > 255 then 255 else x.toNat

/-- C macro `DESCALE`: `(x + 64) >> 7` with arithmetic shift. -/
def descale (x : Int) : Int := (x + 64) / 128

/-- One row of `idct_rows`, acting on the 8 entries `b[0..7]`. -/
def idctRow1 (r : List Int) : List Int :=
  let b0 := r.getD 0 0
  let b1 := r.getD 1 0
  let b2 := r.getD 2 0
  let b3 := r.getD 3 0
  let b4 := r.getD 4 0
  let b5 := r.getD 5 0
  let b6 := r.getD 6 0
  let b7 := r.getD 7 0
  if b1 = 0 ∧ b2 = 0 ∧ b3 = 0 ∧ b4 = 0 ∧ b5 = 0 ∧ b6 = 0 ∧ b7 = 0 then
    [b0, b0, b0, b0, b0, b0, b0, b0]
  else
    let s4 := b5
    let s7 := b3
    let x4 := i16 (s4 - s7)
    let x7 := i16 (s4 + s7)
    let s5 := b1
    let s6 := b7
    let x5 := i16 (s5 + s6)
    let x6 := i16 (s5 - s6)
    let t1 := imul_196 (x4 - x6)
    let st26 := i16 (imul_277 x6 - t1)
    let x24 := i16 (t1 - imul_669 x4)
    let x15 := i16 (x5 - x7)
    let x17 := i16 (x5 + x7)
    let t2 := i16 (st26 - x17)
    let t3 := i16 (imul_362 x15 - t2)
    let x44 := i16 (t3 + x24)
    let s0 := b0
    let s1 := b4
    let x30 := i16 (s0 + s1)
    let x31 := i16 (s0 - s1)
    let s2 := b2
    let s3 := b6
    let x12 := i16 (s2 - s3)
    let x13 := i16 (s2 + s3)
    let x32 := i16 (imul_362 x12 - x13)
    let x40 := i16 (x30 + x13)
    let x43 := i16 (x30 - x13)
    let x41 := i16 (x31 + x32)
    let x42 := i16 (x31 - x32)
    [i16 (x40 + x17), i16 (x41 + t2), i16 (x42 + t3), i16 (x43 - x44),
     i16 (x43 + x44), i16 (x42 - t3), i16 (x41 - t2), i16 (x40 - x17)]

/-- C function `idct_rows`: each of the 8 rows is transformed
independently in place. -/
def idct_rows (b : List Int) : List Int :=
  ((List.range 8).map (fun i => idctRow1 ((b.drop (8 * i)).take 8))).flatten

/-- One column of `idct_cols`: input the 8 entries
`b[i], b[8+i], …, b[56+i]`, output the column of pixel values
`out[0*8+i], …, out[7*8+i]`. -/
def idctCol1 (col : List Int) : List Nat :=
  let c0 := col.getD 0 0
  let c1 := col.getD 1 0
  let c2 := col.getD 2 0
  let c3 := col.getD 3 0
  let c4 := col.getD 4 0
  let c5 := col.getD 5 0
  let c6 := col.getD 6 0
  let c7 := col.getD 7 0
  if c1 = 0 ∧ c2 = 0 ∧ c3 = 0 ∧ c4 = 0 ∧ c5 = 0 ∧ c6 = 0 ∧ c7 = 0 then
    List.replicate 8 (clamp8 (descale c0 + 128))
  else
    let s4 := c5
    let s7 := c3
    let x4 := i16 (s4 - s7)
    let x7 := i16 (s4 + s7)
    let s5 := c1
    let s6 := c7
    let x5 := i16 (s5 + s6)
    let x6 := i16 (s5 - s6)
    let t1 := imul_196 (x4 - x6)
    let st26 := i16 (imul_277 x6 - t1)
    let x24 := i16 (t1 - imul_669 x4)
    let x15 := i16 (x5 - x7)
    let x17 := i16 (x5 + x7)
    let t2 := i16 (st26 - x17)
    let t3 := i16 (imul_362 x15 - t2)
    let x44 := i16 (t3 + x24)
    let s0 := c0
    let s1 := c4
    let x30 := i16 (s0 + s1)
    let x31 := i16 (s0 - s1)
    let s2 := c2
    let s3 := c6
    let x12 := i16 (s2 - s3)
    let x13 := i16 (s2 + s3)
    let x32 := i16 (imul_362 x12 - x13)
    let x40 := i16 (x30 + x13)
    let x43 := i16 (x30 - x13)
    let x41 := i16 (x31 + x32)
    let x42 := i16 (x31 - x32)
    [clamp8 (descale (x40 + x17) + 128), clamp8 (descale (x41 + t2) + 128),
     clamp8 (descale (x42 + t3) + 128), clamp8 (descale (x43 - x44) + 128),
     clamp8 (descale (x43 + x44) + 128), clamp8 (descale (x42 - t3) + 128),
     clamp8 (descale (x41 - t2) + 128), clamp8 (descale (x40 - x17) + 128)]

/-- C function `idct_cols`: transform each of the 8 columns and write the
64 pixel bytes at `out[j*8+i]`. -/
def idct_cols (b : List Int) : List Nat :=
  let cols := (List.range 8).map
    (fun i => idctCol1 ((List.range 8).map (fun j => b.getD (8 * j + i) 0)))
  ((List.range 8).map
    (fun j => (List.range 8).map (fun i => (cols.getD i []).getD j 0))).flatten

/-! ## Block decoding -/

/-- AC coefficient loop of `decode_block`
(`for (k = 1; k < 64; k++) …`), with fuel: `k` grows by at least one per
iteration, so 63 units of fuel starting from `k = 1` cover the loop.
`none` models the `return -1` on `k >= 64` after a non-ZRL symbol. -/
def acLoop : Nat → Nat → Nat → List Int → Fjctx → Option Fjctx
  | 0, _, _, _, c => some c
  | fuel + 1, k, ac_tab, q, c =>
    if k < 64 then
      let (s, c) := huff_decode c ac_tab
      let run := s >>> 4
      let size := s &&& 15
      if size = 0 then
        if run = 15 then acLoop fuel (k + 15 + 1) ac_tab q c else some c
      else
        let k := k + run
        if k ≥ 64 then none
        else
          let (v, c) := get_bits c size
          let ac := huff_extend v size
          let c := { c with block := c.block.set (zag.getD k 0) (i16 (ac * q.getD k 0)) }
          acLoop fuel (k + 1) ac_tab q c
    else some c

/-- C function `decode_block`: DC prediction, AC run/length decode,
dequantize, IDCT; returns the updated context and the 8×8 pixel block, or
`none` for the C `return -1`. -/
def decode_block (c : Fjctx) (comp : Nat) : Option (Fjctx × List Nat) :=
  let c := { c with block := List.replicate 64 0 }
  let qidx := c.comp_qtab.getD comp 0
  let q := c.qtab.getD qidx []
  let dc_tab := c.comp_dc.getD comp 0
  let (s, c) := huff_decode c dc_tab
  let nbits := s &&& 15
  let (v, c) := get_bits c nbits
  let dc := i16 (huff_extend v nbits + c.last_dc.getD comp 0)
  let c := { c with last_dc := c.last_dc.set comp dc }
  let c := { c with block := c.block.set 0 (i16 (dc * q.getD 0 0)) }
  let ac_tab := c.comp_ac.getD comp 0 + 2
  match acLoop 63 1 ac_tab q c with
  | none => none
  | some c =>
    let blk := idct_rows c.block
    some ({ c with block := blk }, idct_cols blk)

/-! ## Restart processing -/

/-- Scan loop of `process_restart`
(`while (c->pos < c->len - 1) …`), with fuel: `pos` advances by one per
iteration. -/
def restartScanGo : Nat → Fjctx → Fjctx
  | 0, c => c
  | fuel + 1, c =>
    if c.pos < c.data.length - 1 then
      if c.data.getD c.pos 0 % 256 = 255 ∧
         208 ≤ c.data.getD (c.pos + 1) 0 % 256 ∧
         c.data.getD (c.pos + 1) 0 % 256 ≤ 215 then
        { c with pos := c.pos + 2 }
      else restartScanGo fuel { c with pos := c.pos + 1 }
    else c

/-- C function `process_restart`. -/
def process_restart (c : Fjctx) : Fjctx :=
  let c := { c with nbits := 0, bits := 0 }
  let c := restartScanGo (c.data.length + 1) c
  { c with last_dc := [0, 0, 0],
           restarts_left := c.restart_interval,
           next_restart := (c.next_restart + 1) &&& 7 }

/-! ## Main decode -/

/-- The inline YCbCr→RGB565 conversion of `fjpeg_decode` (fixed-point
BT.601 approximation, saturation, packing). -/
def rgb565 (Y Cb Cr : Nat) : Nat :=
  let cr : Int := (Cr : Int) - 128
  let cb : Int := (Cb : Int) - 128
  let r := (Y : Int) + (cr * 359) / 256
  let g := (Y : Int) - (cb * 88 + cr * 183) / 256
  let b := (Y : Int) + (cb * 454) / 256
  let r := if r < 0 then 0 else if r > 255 then 255 else r
  let g := if g < 0 then 0 else if g > 255 then 255 else g
  let b := if b < 0 then 0 else if b > 255 then 255 else b
  ((r.toNat &&& 0xF8) <<< 8) ||| ((g.toNat &&& 0xFC) <<< 3) ||| (b.toNat >>> 3)

/-- Fetch of Y, Cb, Cr for one pixel of the current MCU, from
`fjpeg_decode`'s inner pixel loop. -/
def mcuPixel (ncomp ny_h h_shift v_shift : Nat) (ybs : List (List Nat))
    (cbb crb : List Nat) (py px : Nat) : Nat :=
  if ncomp = 1 then
    rgb565 ((ybs.getD 0 []).getD (py * 8 + px) 0) 128 128
  else
    let yb := (py >>> 3) * ny_h + (px >>> 3)
    let Y := (ybs.getD yb []).getD ((py &&& 7) * 8 + (px &&& 7)) 0
    let cx := px >>> h_shift
    let cy := py >>> v_shift
    rgb565 Y (cbb.getD (cy * 8 + cx) 0) (crb.getD (cy * 8 + cx) 0)

/-- Inner pixel loop over `px` (`for (px = 0; px < mcu_w; px++)` with the
`break` on `img_x >= width`), writing RGB565 cells into the row buffer. -/
def mcuPxGo (width px0 py row_stride : Nat) (ncomp ny_h h_shift v_shift : Nat)
    (ybs : List (List Nat)) (cbb crb : List Nat) :
    Nat → Nat → List Nat → List Nat
  | 0, _, buf => buf
  | n + 1, px, buf =>
    let img_x := px0 + px
    if img_x ≥ width then buf
    else
      let v := mcuPixel ncomp ny_h h_shift v_shift ybs cbb crb py px
      mcuPxGo width px0 py row_stride ncomp ny_h h_shift v_shift ybs cbb crb
        n (px + 1) (buf.set (py * row_stride + img_x) v)

/-- Outer pixel loop over `py` (`for (py = 0; py < mcu_h; py++)` with the
`break` on `img_y >= height`). -/
def mcuPyGo (width height mcu_w mcu_h mcu_y px0 row_stride : Nat)
    (ncomp ny_h h_shift v_shift : Nat)
    (ybs : List (List Nat)) (cbb crb : List Nat) :
    Nat → Nat → List Nat → List Nat
  | 0, _, buf => buf
  | n + 1, py, buf =>
    let img_y := mcu_y * mcu_h + py
    if img_y ≥ height then buf
    else
      let buf := mcuPxGo width px0 py row_stride ncomp ny_h h_shift v_shift
        ybs cbb crb mcu_w 0 buf
      mcuPyGo width height mcu_w mcu_h mcu_y px0 row_stride ncomp ny_h
        h_shift v_shift ybs cbb crb n (py + 1) buf

/-- Decode the `ny_v * ny_h` luma blocks of one MCU in raster order. -/
def ybDecodeGo : Nat → Fjctx → Option (Fjctx × List (List Nat))
  | 0, c => some (c, [])
  | n + 1, c =>
    match decode_block c 0 with
    | none => none
    | some (c, px) =>
      match ybDecodeGo n c with
      | none => none
      | some (c, rest) => some (c, px :: rest)

/-- Restart interval handling at the top of the MCU column loop
(`if (ctx.restart_interval) { if (ctx.restarts_left == 0)
process_restart(&ctx); ctx.restarts_left--; }`). -/
def restartCheck (c : Fjctx) : Fjctx :=
  if c.restart_interval ≠ 0 then
    let c := if c.restarts_left = 0 then process_restart c else c
    { c with restarts_left := u16 (c.restarts_left + 65535) }
  else c

/-- Chroma block decoding of one MCU (`if (ctx.ncomp == 3) { … }`); for
grayscale the C blocks stay unread, modelled as zero blocks. -/
def chromaDecode (c : Fjctx) : Option (Fjctx × List Nat × List Nat) :=
  if c.ncomp = 3 then
    match decode_block c 1 with
    | none => none
    | some (c, cbb) =>
      match decode_block c 2 with
      | none => none
      | some (c, crb) => some (c, cbb, crb)
  else some (c, List.replicate 64 0, List.replicate 64 0)

/-- MCU column loop of `fjpeg_decode` (`for (mcu_x = 0; …)`): restart
handling, component block decode, pixel conversion into the row buffer. -/
def mcuXGo (row_stride h_shift v_shift ny_h ny_v : Nat) (mcu_y : Nat) :
    Nat → Nat → Fjctx → List Nat → Option (Fjctx × List Nat)
  | 0, _, c, buf => some (c, buf)
  | n + 1, mcu_x, c, buf =>
    let c := restartCheck c
    match ybDecodeGo (ny_v * ny_h) c with
    | none => none
    | some (c, ybs) =>
      match chromaDecode c with
      | none => none
      | some (c, cbb, crb) =>
        let px0 := mcu_x * c.mcu_w
        let buf := mcuPyGo c.width c.height c.mcu_w c.mcu_h mcu_y px0
          row_stride c.ncomp ny_h h_shift v_shift ybs cbb crb c.mcu_h 0 buf
        mcuXGo row_stride h_shift v_shift ny_h ny_v mcu_y n (mcu_x + 1) c buf

/-- Row delivery loop of `fjpeg_decode`
(`for (py = 0; py < mcu_h; py++) { …; cb(img_y, width, row); }`): each
emitted element is `(img_y, width, row pixels)`. -/
def emitRowsGo (mcu_y : Nat) (c : Fjctx) (buf : List Nat) :
    Nat → Nat → List (Nat × Nat × List Nat)
  | 0, _ => []
  | n + 1, py =>
    let img_y := mcu_y * c.mcu_h + py
    if img_y ≥ c.height then []
    else
      (img_y, c.width, (buf.drop (py * c.width)).take c.width) ::
        emitRowsGo mcu_y c buf n (py + 1)

/-- One iteration of the MCU row loop of `fjpeg_decode`: clear the row
buffer, process all MCU columns, emit the completed rows.  `none` is the
`goto fail` path. -/
def decodeRowOnce (row_stride h_shift v_shift ny_h ny_v mcu_y : Nat) (c : Fjctx) :
    Option (Fjctx × List (Nat × Nat × List Nat)) :=
  let buf := List.replicate (row_stride * c.mcu_h) 0
  match mcuXGo row_stride h_shift v_shift ny_h ny_v mcu_y c.mcus_x 0 c buf with
  | none => none
  | some (c, buf) => some (c, emitRowsGo mcu_y c buf c.mcu_h 0)

/-- MCU row loop of `fjpeg_decode` (`for (mcu_y = 0; …)`), returning the
status and the full trace of sink invocations. -/
def decodeRowsGo (row_stride h_shift v_shift ny_h ny_v : Nat) :
    Nat → Nat → Fjctx → Int × List (Nat × Nat × List Nat)
  | 0, _, _ => (0, [])
  | n + 1, mcu_y, c =>
    match decodeRowOnce row_stride h_shift v_shift ny_h ny_v mcu_y c with
    | none => (-1, [])
    | some (c, rows) =>
      let (st, rest) := decodeRowsGo row_stride h_shift v_shift ny_h ny_v n (mcu_y + 1) c
      (st, rows ++ rest)

/-- Iterating the first `m` MCU rows, when they all succeed: the context
after them and the rows delivered so far. -/
def decodeRowsUpTo (row_stride h_shift v_shift ny_h ny_v : Nat) :
    Nat → Nat → Fjctx → Option (Fjctx × List (Nat × Nat × List Nat))
  | 0, _, c => some (c, [])
  | m + 1, mcu_y, c =>
    match decodeRowOnce row_stride h_shift v_shift ny_h ny_v mcu_y c with
    | none => none
    | some (c, rows) =>
      match decodeRowsUpTo row_stride h_shift v_shift ny_h ny_v m (mcu_y + 1) c with
      | none => none
      | some (c, rest) => some (c, rows ++ rest)

/-- C function `fjpeg_decode`.  The result is the return status together
with the trace of row-sink callback invocations `(y, w, pixels)` in
order.  (The row-buffer allocation is assumed to succeed; the
malloc-failure exit is not modelled.) -/
def fjpeg_decode (bytes : List Nat) : Int × List (Nat × Nat × List Nat) :=
  let c := initCtx bytes
  let (r, c) := parse_markers c
  if r ≠ 0 then (-1, [])
  else if c.width = 0 ∨ c.height = 0 then (-1, [])
  else
    let c :=
      if c.restart_interval ≠ 0 then
        { c with restarts_left := c.restart_interval, next_restart := 0 }
      else c
    let row_stride := c.width
    let h_shift := if c.ncomp > 1 ∧ c.hsamp.getD 0 0 > 1 then 1 else 0
    let v_shift := if c.ncomp > 1 ∧ c.vsamp.getD 0 0 > 1 then 1 else 0
    let ny_h := if c.ncomp = 1 then 1 else c.hsamp.getD 0 0
    let ny_v := if c.ncomp = 1 then 1 else c.vsamp.getD 0 0
    decodeRowsGo row_stride h_shift v_shift ny_h ny_v c.mcus_y 0 c

/-- Marker scan loop of `fjpeg_info` (`while (p + 4 <= end)`), with fuel:
`p` strictly advances each iteration.  The `info` out-parameter is the
`(width, height)` pair, threaded through unchanged until the success
write. -/
def fjpegInfoGo (bytes : List Nat) : Nat → Nat → Nat × Nat → Int × (Nat × Nat)
  | 0, _, info => (-1, info)
  | fuel + 1, p, info =>
    if p + 4 ≤ bytes.length then
      if bytes.getD p 0 % 256 ≠ 255 then fjpegInfoGo bytes fuel (p + 1) info
      else
        let marker := bytes.getD (p + 1) 0 % 256
        if marker = 0xC0 then
          if p + 9 > bytes.length then (-1, info)
          else
            (0, ((bytes.getD (p + 7) 0 % 256) * 256 + bytes.getD (p + 8) 0 % 256,
                 (bytes.getD (p + 5) 0 % 256) * 256 + bytes.getD (p + 6) 0 % 256))
        else if marker = 0xD9 then (-1, info)
        else
          let mlen := (bytes.getD (p + 2) 0 % 256) * 256 + bytes.getD (p + 3) 0 % 256
          fjpegInfoGo bytes fuel (p + 2 + mlen) info
    else (-1, info)

/-- C function `fjpeg_info`: the result is the return status and the
final value of the `fjpeg_info_t` out-parameter `(width, height)`. -/
def fjpeg_info (bytes : List Nat) (info : Nat × Nat) : Int × (Nat × Nat) :=
  if bytes.length < 2 ∨ bytes.getD 0 0 % 256 ≠ 255 ∨ bytes.getD 1 0 % 256 ≠ 0xD8 then
    (-1, info)
  else fjpegInfoGo bytes (bytes.length + 1) 2 info


/-! ## Concrete byte streams used by witnesses and counterexamples -/

/-- SOI marker bytes `FF D8`. -/
def soiBytes : List Nat := [0xFF, 0xD8]

/-- A DQT segment: 8-bit precision, table 0, all raw entries 1. -/
def dqtBytes : List Nat := [0xFF, 0xDB, 0x00, 0x43, 0x00] ++ List.replicate 64 1

/-- An SOF0 segment declaring an 8x8 grayscale image. -/
def sofTestBytes : List Nat :=
  [0xFF, 0xC0, 0x00, 0x0B, 0x08, 0x00, 0x08, 0x00, 0x08, 0x01, 0x01, 0x11, 0x00]

/-- An SOF0 segment declaring a 1x1 grayscale image. -/
def sof1x1Bytes : List Nat :=
  [0xFF, 0xC0, 0x00, 0x0B, 0x08, 0x00, 0x01, 0x00, 0x01, 0x01, 0x01, 0x11, 0x00]

/-- A DHT segment for a DC table (class 0, id 0) holding the single
symbol `s` with a one-bit code. -/
def dhtDcBytes (s : Nat) : List Nat :=
  [0xFF, 0xC4, 0x00, 0x14, 0x00, 1] ++ List.replicate 15 0 ++ [s]

/-- A DHT segment for an AC table (class 1, id 0) holding the single
symbol `s` with a one-bit code. -/
def dhtAcBytes (s : Nat) : List Nat :=
  [0xFF, 0xC4, 0x00, 0x14, 0x10, 1] ++ List.replicate 15 0 ++ [s]

/-- An SOS header for a single-component scan using DC/AC tables 0. -/
def sosBytes : List Nat := [0xFF, 0xDA, 0x00, 0x08, 0x01, 0x01, 0x00, 0x00, 0x3F, 0x00]

/-- A complete valid 8x8 grayscale baseline JPEG: flat quantization
table 1, DC difference 0, no AC coefficients; every pixel decodes to
RGB565 0x8410. -/
def jpegGray8 : List Nat :=
  soiBytes ++ dqtBytes ++ sofTestBytes ++ dhtDcBytes 0 ++ dhtAcBytes 0 ++
    sosBytes ++ [0x00] ++ [0xFF, 0xD9]

/-- A 1x1 grayscale JPEG whose single block decodes to DC coefficient 8
(category-4 symbol, value bits `1000`), with raw quantization entry 1. -/
def jpeg1x1d8 : List Nat :=
  soiBytes ++ dqtBytes ++ sof1x1Bytes ++ dhtDcBytes 4 ++ dhtAcBytes 0 ++
    sosBytes ++ [0x40] ++ [0xFF, 0xD9]

/-- The same 8x8 grayscale JPEG with both DHT segments declaring table
id 2 (info bytes `0x02` and `0x12`): the id is outside {0,1}. -/
def jpegDhtId2 : List Nat :=
  soiBytes ++ dqtBytes ++ sofTestBytes ++
    ([0xFF, 0xC4, 0x00, 0x14, 0x02, 1] ++ List.replicate 15 0 ++ [0x00]) ++
    ([0xFF, 0xC4, 0x00, 0x14, 0x12, 1] ++ List.replicate 15 0 ++ [0x00]) ++
    sosBytes ++ [0x00] ++ [0xFF, 0xD9]

/-- An 8x8 grayscale JPEG whose AC table holds only the symbol 0xF1
(run 15, size 1); a stream of zero bits then repeats that symbol until
the coefficient index k overruns 63. -/
def jpegAcOverflow : List Nat :=
  soiBytes ++ dqtBytes ++ sofTestBytes ++ dhtDcBytes 0 ++ dhtAcBytes 0xF1 ++
    sosBytes ++ [0x00, 0x00, 0x00] ++ [0xFF, 0xD9]

/-- A DQT segment with 16-bit precision entries, first raw value 2048,
the rest 0. -/
def dqt16Bytes : List Nat :=
  [0xFF, 0xDB, 0x00, 0x83, 0x10, 0x08, 0x00] ++ List.replicate 126 0

/-! ## Canonical Huffman code assignment (specification side)

`canonFrom cs code i` is the first canonical code value of row `i`
(codes of `i+1` bits) of the table built from the remaining counts `cs`
when the current row starts at code value `code`; `prefSum cs i` is the
number of symbols in the first `i` rows; `kraftW cs w` is the Kraft sum
`Σ cs[t] * (w >> t)` at initial leaf weight `w`. -/

def canonFrom : List Nat → Nat → Nat → Nat
  | _, code, 0 => code
  | [], code, _ + 1 => code
  | cnt :: rest, code, i + 1 => canonFrom rest ((code + cnt) * 2) i

def prefSum : List Nat → Nat → Nat
  | _, 0 => 0
  | [], _ + 1 => 0
  | cnt :: rest, i + 1 => cnt + prefSum rest i

def kraftW : List Nat → Nat → Nat
  | [], _ => 0
  | cnt :: rest, w => cnt * w + kraftW rest (w / 2)

/-- A context whose 32-bit register holds the `len`-bit code `code`
left-aligned (MSB first) with no further input bytes, and whose table 0
is built by `huff_build` from `counts` with symbol array `syms`: the
state in which `huff_decode` consumes exactly the bits of `code`. -/
def mkHuffCtx (counts syms : List Nat) (code len : Nat) : Fjctx :=
  { initCtx [] with
      nbits := 32,
      bits := u32 (code <<< (32 - len)),
      huff := (initCtx []).huff.set 0 (huff_build counts),
      huff_val := (initCtx []).huff_val.set 0 syms }


/-! ## Frame lemmas: which context fields each operation can change

Each lemma exhibits the result context as the input context with only
the listed fields replaced; every other field is untouched. -/

theorem read_u8_shape (c : Fjctx) : ∃ p, (read_u8 c).2 = { c with pos := p } := by
  unfold read_u8; split
  · exact ⟨c.pos + 1, rfl⟩
  · exact ⟨c.pos, rfl⟩

theorem read_u16_shape (c : Fjctx) : ∃ p, (read_u16 c).2 = { c with pos := p } := by
  unfold read_u16
  obtain ⟨p1, h1⟩ := read_u8_shape c
  rcases e1 : read_u8 c with ⟨hi, c1⟩
  rw [e1] at h1; simp only at h1 ⊢
  obtain ⟨p2, h2⟩ := read_u8_shape c1
  rcases e2 : read_u8 c1 with ⟨lo, c2⟩
  rw [e2] at h2; simp only at h2 ⊢
  rw [h2, h1]
  exact ⟨p2, rfl⟩

theorem next_byte_shape (c : Fjctx) : ∃ p, (next_byte c).2 = { c with pos := p } := by
  unfold next_byte
  obtain ⟨p1, h1⟩ := read_u8_shape c
  rcases e1 : read_u8 c with ⟨b, c1⟩
  rw [e1] at h1; simp only at h1 ⊢
  split
  · obtain ⟨p2, h2⟩ := read_u8_shape c1
    rcases e2 : read_u8 c1 with ⟨mk, c2⟩
    rw [e2] at h2; simp only at h2 ⊢
    split
    · rw [h2, h1]; exact ⟨p2 - 2, rfl⟩
    · rw [h2, h1]; exact ⟨p2, rfl⟩
  · rw [h1]; exact ⟨p1, rfl⟩

theorem fillStep_shape (c : Fjctx) :
    ∃ p b n, fillStep c = { c with pos := p, bits := b, nbits := n } := by
  unfold fillStep
  obtain ⟨p1, h1⟩ := next_byte_shape c
  rcases e1 : next_byte c with ⟨b, c1⟩
  rw [e1] at h1; simp only at h1 ⊢
  rw [h1]
  exact ⟨p1, _, _, rfl⟩

theorem fillBitsGo_shape (fuel : Nat) (c : Fjctx) :
    ∃ p b n, fillBitsGo fuel c = { c with pos := p, bits := b, nbits := n } := by
  induction fuel generalizing c with
  | zero => exact ⟨c.pos, c.bits, c.nbits, rfl⟩
  | succ fuel ih =>
    unfold fillBitsGo
    split
    · obtain ⟨ps, bs, ns, hs⟩ := fillStep_shape c
      rw [hs]
      obtain ⟨p, b, n, h⟩ := ih { c with pos := ps, bits := bs, nbits := ns }
      rw [h]
      exact ⟨p, b, n, rfl⟩
    · exact ⟨c.pos, c.bits, c.nbits, rfl⟩

theorem fill_bits_shape (c : Fjctx) :
    ∃ p b n, fill_bits c = { c with pos := p, bits := b, nbits := n } :=
  fillBitsGo_shape 5 c

theorem get_bit_shape (c : Fjctx) :
    ∃ p b n, (get_bit c).2 = { c with pos := p, bits := b, nbits := n } := by
  unfold get_bit
  obtain ⟨p, b, n, h⟩ := fill_bits_shape c
  rw [h]
  exact ⟨p, _, _, rfl⟩

theorem get_bits_shape (c : Fjctx) (k : Nat) :
    ∃ p b n, (get_bits c k).2 = { c with pos := p, bits := b, nbits := n } := by
  unfold get_bits
  split
  · exact ⟨c.pos, c.bits, c.nbits, rfl⟩
  · obtain ⟨p, b, n, h⟩ := fill_bits_shape c
    rw [h]
    exact ⟨p, _, _, rfl⟩

theorem huffDecodeGo_shape (rows : List HuffRow) (syms : List Nat) (code : Nat)
    (c : Fjctx) :
    ∃ p b n, (huffDecodeGo rows syms code c).2 = { c with pos := p, bits := b, nbits := n } := by
  induction rows generalizing code c with
  | nil => exact ⟨c.pos, c.bits, c.nbits, rfl⟩
  | cons row rest ih =>
    obtain ⟨mn, mx, vp⟩ := row
    unfold huffDecodeGo
    split
    · exact ⟨c.pos, c.bits, c.nbits, rfl⟩
    · obtain ⟨p1, b1, n1, h1⟩ := get_bit_shape c
      rcases e1 : get_bit c with ⟨bit, c1⟩
      rw [e1] at h1; simp only at h1 ⊢
      rw [h1]
      obtain ⟨p, b, n, h⟩ := ih _ { c with pos := p1, bits := b1, nbits := n1 }
      rw [h]
      exact ⟨p, b, n, rfl⟩

theorem huff_decode_shape (c : Fjctx) (t : Nat) :
    ∃ p b n, (huff_decode c t).2 = { c with pos := p, bits := b, nbits := n } := by
  unfold huff_decode
  obtain ⟨p1, b1, n1, h1⟩ := get_bit_shape c
  rcases e1 : get_bit c with ⟨bit, c1⟩
  rw [e1] at h1; simp only at h1 ⊢
  rw [h1]
  obtain ⟨p, b, n, h⟩ := huffDecodeGo_shape _ _ _ _
  rw [h]
  exact ⟨p, b, n, rfl⟩

theorem acLoop_shape (fuel : Nat) : ∀ (k t : Nat) (q : List Int) (c c' : Fjctx),
    acLoop fuel k t q c = some c' →
    ∃ p b n blk, c' = { c with pos := p, bits := b, nbits := n, block := blk } := by
  induction fuel with
  | zero =>
    intro k t q c c' h
    injection h with h; subst h
    exact ⟨_, _, _, _, rfl⟩
  | succ fuel ih =>
    intro k t q c c' h
    unfold acLoop at h
    split at h
    · obtain ⟨p1, b1, n1, h1⟩ := huff_decode_shape c t
      rcases e1 : huff_decode c t with ⟨s, c1⟩
      rw [e1] at h h1; simp only at h h1
      split at h
      · split at h
        · obtain ⟨p, b, n, blk, hh⟩ := ih _ _ _ _ _ h
          rw [hh, h1]; exact ⟨_, _, _, _, rfl⟩
        · injection h with h; subst h
          rw [h1]; exact ⟨_, _, _, _, rfl⟩
      · split at h
        · exact Option.noConfusion h
        · obtain ⟨p2, b2, n2, h2⟩ := get_bits_shape c1 (s &&& 15)
          rcases e2 : get_bits c1 (s &&& 15) with ⟨v, c2⟩
          rw [e2] at h h2; simp only at h h2
          obtain ⟨p, b, n, blk, hh⟩ := ih _ _ _ _ _ h
          rw [hh, h2, h1]; exact ⟨_, _, _, _, rfl⟩
    · injection h with h; subst h
      exact ⟨_, _, _, _, rfl⟩

theorem decode_block_shape (c : Fjctx) (comp : Nat) (c' : Fjctx) (px : List Nat)
    (h : decode_block c comp = some (c', px)) :
    ∃ p b n ld blk,
      c' = { c with pos := p, bits := b, nbits := n, last_dc := ld, block := blk } := by
  unfold decode_block at h
  simp only at h
  obtain ⟨p1, b1, n1, h1⟩ :=
    huff_decode_shape { c with block := List.replicate 64 0 } (c.comp_dc.getD comp 0)
  rw [h1] at h
  simp only at h
  obtain ⟨p2, b2, n2, h2⟩ :=
    get_bits_shape { c with pos := p1, bits := b1, nbits := n1, block := List.replicate 64 0 }
      ((huff_decode { c with block := List.replicate 64 0 } (c.comp_dc.getD comp 0)).1 &&& 15)
  rw [h2] at h
  simp only at h
  split at h
  · exact Option.noConfusion h
  · rename_i c3 e3
    obtain ⟨p, b, n, blk, hh⟩ := acLoop_shape _ _ _ _ _ _ e3
    injection h with h
    rw [Prod.mk.injEq] at h
    obtain ⟨h, hpx⟩ := h
    subst h
    rw [hh]
    exact ⟨_, _, _, _, _, rfl⟩

theorem restartScanGo_shape (fuel : Nat) (c : Fjctx) :
    ∃ p, restartScanGo fuel c = { c with pos := p } := by
  induction fuel generalizing c with
  | zero => exact ⟨c.pos, rfl⟩
  | succ fuel ih =>
    unfold restartScanGo
    split
    · split
      · exact ⟨c.pos + 2, rfl⟩
      · obtain ⟨p, h⟩ := ih { c with pos := c.pos + 1 }
        rw [h]
        exact ⟨p, rfl⟩
    · exact ⟨c.pos, rfl⟩

theorem process_restart_shape (c : Fjctx) :
    ∃ p, process_restart c =
      { c with pos := p, bits := 0, nbits := 0, last_dc := [0, 0, 0],
               restarts_left := c.restart_interval,
               next_restart := (c.next_restart + 1) &&& 7 } := by
  unfold process_restart
  simp only
  obtain ⟨p, h⟩ := restartScanGo_shape (c.data.length + 1) { c with nbits := 0, bits := 0 }
  rw [h]
  exact ⟨p, rfl⟩

/-- The entropy-phase footprint: `c'` differs from `c` at most in the
cursor, bit accumulator, DC predictors, restart counters and work
block. -/
def EntShape (c c' : Fjctx) : Prop :=
  ∃ p b n ld blk rl nr,
    c' = { c with pos := p, bits := b, nbits := n, last_dc := ld,
                  block := blk, restarts_left := rl, next_restart := nr }

theorem entShape_refl (c : Fjctx) : EntShape c c :=
  ⟨c.pos, c.bits, c.nbits, c.last_dc, c.block, c.restarts_left, c.next_restart, rfl⟩

theorem entShape_trans {a b c : Fjctx} (h1 : EntShape a b) (h2 : EntShape b c) :
    EntShape a c := by
  obtain ⟨p, bb, n, ld, blk, rl, nr, h1⟩ := h1
  obtain ⟨p2, bb2, n2, ld2, blk2, rl2, nr2, h2⟩ := h2
  subst h1
  subst h2
  exact ⟨_, _, _, _, _, _, _, rfl⟩

theorem entShape_decode_block {c c' : Fjctx} {comp : Nat} {px : List Nat}
    (h : decode_block c comp = some (c', px)) : EntShape c c' := by
  obtain ⟨p, b, n, ld, blk, hh⟩ := decode_block_shape c comp c' px h
  subst hh
  exact ⟨_, _, _, _, _, _, _, rfl⟩

theorem entShape_process_restart (c : Fjctx) : EntShape c (process_restart c) := by
  obtain ⟨p, h⟩ := process_restart_shape c
  rw [h]
  exact ⟨_, _, _, _, _, _, _, rfl⟩

theorem ybDecodeGo_shape (n : Nat) : ∀ (c c' : Fjctx) (ybs : List (List Nat)),
    ybDecodeGo n c = some (c', ybs) → EntShape c c' := by
  induction n with
  | zero =>
    intro c c' ybs h
    injection h with h
    rw [Prod.mk.injEq] at h
    obtain ⟨h, -⟩ := h
    subst h
    exact entShape_refl c
  | succ n ih =>
    intro c c' ybs h
    unfold ybDecodeGo at h
    split at h
    · exact Option.noConfusion h
    · rename_i cpx e1
      split at h
      · exact Option.noConfusion h
      · rename_i crest e2
        injection h with h
        rw [Prod.mk.injEq] at h
        obtain ⟨h, -⟩ := h
        subst h
        exact entShape_trans (entShape_decode_block e1) (ih _ _ _ e2)

theorem entShape_restartCheck (c : Fjctx) : EntShape c (restartCheck c) := by
  unfold restartCheck
  split
  · split
    · obtain ⟨p, h⟩ := process_restart_shape c
      rw [h]
      exact ⟨_, _, _, _, _, _, _, rfl⟩
    · exact ⟨_, _, _, _, _, _, _, rfl⟩
  · exact entShape_refl c

theorem entShape_chromaDecode {c c' : Fjctx} {cbb crb : List Nat}
    (h : chromaDecode c = some (c', cbb, crb)) : EntShape c c' := by
  unfold chromaDecode at h
  split at h
  · split at h
    · exact Option.noConfusion h
    · rename_i ccb e1
      split at h
      · exact Option.noConfusion h
      · rename_i ccr e2
        injection h with h
        rw [Prod.mk.injEq] at h
        obtain ⟨h, -⟩ := h
        subst h
        exact entShape_trans (entShape_decode_block e1) (entShape_decode_block e2)
  · injection h with h
    rw [Prod.mk.injEq] at h
    obtain ⟨h, -⟩ := h
    subst h
    exact entShape_refl c

theorem mcuXGo_shape (row_stride h_shift v_shift ny_h ny_v mcu_y : Nat) (n : Nat) :
    ∀ (mcu_x : Nat) (c : Fjctx) (buf : List Nat) (c' : Fjctx) (buf' : List Nat),
    mcuXGo row_stride h_shift v_shift ny_h ny_v mcu_y n mcu_x c buf = some (c', buf') →
    EntShape c c' := by
  induction n with
  | zero =>
    intro mcu_x c buf c' buf' h
    injection h with h
    rw [Prod.mk.injEq] at h
    obtain ⟨h, -⟩ := h
    subst h
    exact entShape_refl c
  | succ n ih =>
    intro mcu_x c buf c' buf' h
    unfold mcuXGo at h
    simp only at h
    rcases e1 : ybDecodeGo (ny_v * ny_h) (restartCheck c) with _ | ⟨cy, ybs⟩ <;>
      rw [e1] at h <;> simp only at h
    · exact Option.noConfusion h
    · rcases e2 : chromaDecode cy with _ | ⟨cc, cbb, crb⟩ <;>
        rw [e2] at h <;> simp only at h
      · exact Option.noConfusion h
      · exact entShape_trans (entShape_restartCheck c)
          (entShape_trans (ybDecodeGo_shape _ _ _ _ e1)
            (entShape_trans (entShape_chromaDecode e2) (ih _ _ _ _ _ h)))

theorem readQuantVals_shape (n prec : Nat) (c : Fjctx) :
    ∃ p, (readQuantVals n prec c).2 = { c with pos := p } := by
  induction n generalizing c with
  | zero => exact ⟨c.pos, rfl⟩
  | succ n ih =>
    unfold readQuantVals
    obtain ⟨p1, h1⟩ := read_u8_shape c
    rcases e1 : read_u8 c with ⟨b, c1⟩
    rw [e1] at h1; simp only at h1 ⊢
    split
    · obtain ⟨p2, h2⟩ := read_u8_shape c1
      rcases e2 : read_u8 c1 with ⟨b2, c2⟩
      rw [e2] at h2; simp only at h2 ⊢
      obtain ⟨p3, h3⟩ := ih c2
      rcases e3 : readQuantVals n prec c2 with ⟨vs, c3⟩
      rw [e3] at h3; simp only at h3 ⊢
      rw [h3, h2, h1]
      exact ⟨p3, rfl⟩
    · obtain ⟨p3, h3⟩ := ih c1
      rcases e3 : readQuantVals n prec c1 with ⟨vs, c3⟩
      rw [e3] at h3; simp only at h3 ⊢
      rw [h3, h1]
      exact ⟨p3, rfl⟩

theorem parseDqtGo_shape (fuel : Nat) : ∀ (left : Nat) (c : Fjctx),
    ∃ p q, (parseDqtGo fuel left c).2 = { c with pos := p, qtab := q } := by
  induction fuel with
  | zero => intro left c; exact ⟨c.pos, c.qtab, rfl⟩
  | succ fuel ih =>
    intro left c
    unfold parseDqtGo
    split
    · exact ⟨c.pos, c.qtab, rfl⟩
    · obtain ⟨p1, h1⟩ := read_u8_shape c
      rcases e1 : read_u8 c with ⟨info, c1⟩
      rw [e1] at h1; simp only at h1 ⊢
      split
      · rw [h1]; exact ⟨p1, c.qtab, rfl⟩
      · obtain ⟨p2, h2⟩ := readQuantVals_shape 64 (info >>> 4) c1
        rcases e2 : readQuantVals 64 (info >>> 4) c1 with ⟨vals, c2⟩
        rw [e2] at h2; simp only at h2 ⊢
        obtain ⟨p3, q3, h3⟩ := ih _ { c2 with qtab := c2.qtab.set (info &&& 15) (dqtScaleRow vals) }
        rw [h3, h2, h1]
        exact ⟨p3, q3, rfl⟩

theorem parse_dqt_shape (c : Fjctx) :
    ∃ p q, (parse_dqt c).2 = { c with pos := p, qtab := q } := by
  unfold parse_dqt
  obtain ⟨p1, h1⟩ := read_u16_shape c
  rcases e1 : read_u16 c with ⟨len, c1⟩
  rw [e1] at h1; simp only at h1 ⊢
  obtain ⟨p, q, h⟩ := parseDqtGo_shape 65536 (u16 (len + 65534)) c1
  rw [h, h1]
  exact ⟨p, q, rfl⟩

theorem readBytesN_shape (n : Nat) (c : Fjctx) :
    ∃ p, (readBytesN n c).2 = { c with pos := p } := by
  induction n generalizing c with
  | zero => exact ⟨c.pos, rfl⟩
  | succ n ih =>
    unfold readBytesN
    obtain ⟨p1, h1⟩ := read_u8_shape c
    rcases e1 : read_u8 c with ⟨b, c1⟩
    rw [e1] at h1; simp only at h1 ⊢
    obtain ⟨p2, h2⟩ := ih c1
    rcases e2 : readBytesN n c1 with ⟨bs, c2⟩
    rw [e2] at h2; simp only at h2 ⊢
    rw [h2, h1]
    exact ⟨p2, rfl⟩

theorem dhtReadTable_shape (c : Fjctx) :
    ∃ p hf hv hn, (dhtReadTable c).2 =
      { c with pos := p, huff := hf, huff_val := hv, huff_nval := hn } := by
  unfold dhtReadTable
  obtain ⟨p1, h1⟩ := read_u8_shape c
  rcases e1 : read_u8 c with ⟨info, c1⟩
  rw [e1] at h1; simp only at h1 ⊢
  obtain ⟨p2, h2⟩ := readBytesN_shape 16 c1
  rcases e2 : readBytesN 16 c1 with ⟨counts, c2⟩
  rw [e2] at h2; simp only at h2 ⊢
  obtain ⟨p3, h3⟩ := readBytesN_shape (min counts.sum 256) c2
  rcases e3 : readBytesN (min counts.sum 256) c2 with ⟨syms, c3⟩
  rw [e3] at h3; simp only at h3 ⊢
  rw [h3, h2, h1]
  exact ⟨p3, _, _, _, rfl⟩

theorem parseDhtGo_shape (fuel : Nat) : ∀ (left : Nat) (c : Fjctx),
    ∃ p hf hv hn, (parseDhtGo fuel left c).2 =
      { c with pos := p, huff := hf, huff_val := hv, huff_nval := hn } := by
  induction fuel with
  | zero => intro left c; exact ⟨c.pos, c.huff, c.huff_val, c.huff_nval, rfl⟩
  | succ fuel ih =>
    intro left c
    unfold parseDhtGo
    split
    · exact ⟨c.pos, c.huff, c.huff_val, c.huff_nval, rfl⟩
    · obtain ⟨p1, hf1, hv1, hn1, h1⟩ := dhtReadTable_shape c
      simp only
      rw [h1]
      obtain ⟨p, hf, hv, hn, h⟩ := ih _
        { c with pos := p1, huff := hf1, huff_val := hv1, huff_nval := hn1 }
      rw [h]
      exact ⟨p, hf, hv, hn, rfl⟩

theorem parse_dht_shape (c : Fjctx) :
    ∃ p hf hv hn, (parse_dht c).2 =
      { c with pos := p, huff := hf, huff_val := hv, huff_nval := hn } := by
  unfold parse_dht
  obtain ⟨p1, h1⟩ := read_u16_shape c
  rcases e1 : read_u16 c with ⟨len, c1⟩
  rw [e1] at h1; simp only at h1 ⊢
  obtain ⟨p, hf, hv, hn, h⟩ := parseDhtGo_shape 65536 (u16 (len + 65534)) c1
  rw [h, h1]
  exact ⟨p, hf, hv, hn, rfl⟩

theorem readCompSpecs_shape (n : Nat) : ∀ (i : Nat) (c : Fjctx),
    ∃ p hs vs cq, readCompSpecs n i c =
      { c with pos := p, hsamp := hs, vsamp := vs, comp_qtab := cq } := by
  induction n with
  | zero => intro i c; exact ⟨c.pos, c.hsamp, c.vsamp, c.comp_qtab, rfl⟩
  | succ n ih =>
    intro i c
    unfold readCompSpecs
    obtain ⟨p1, h1⟩ := read_u8_shape c
    rcases e1 : read_u8 c with ⟨b1, c1⟩
    rw [e1] at h1; simp only at h1 ⊢
    obtain ⟨p2, h2⟩ := read_u8_shape c1
    rcases e2 : read_u8 c1 with ⟨samp, c2⟩
    rw [e2] at h2; simp only at h2 ⊢
    obtain ⟨p3, h3⟩ := read_u8_shape c2
    rcases e3 : read_u8 c2 with ⟨q, c3⟩
    rw [e3] at h3; simp only at h3 ⊢
    rw [h3, h2, h1]
    obtain ⟨p, hs, vs, cq, h⟩ := ih (i + 1) _
    rw [h]
    exact ⟨p, hs, vs, cq, rfl⟩

theorem parse_sof_shape (c : Fjctx) :
    ∃ p w hh nc hs vs cq mw mh mx my, (parse_sof c).2 =
      { c with pos := p, width := w, height := hh, ncomp := nc, hsamp := hs,
               vsamp := vs, comp_qtab := cq, mcu_w := mw, mcu_h := mh,
               mcus_x := mx, mcus_y := my } := by
  unfold parse_sof
  obtain ⟨p1, h1⟩ := read_u16_shape c
  rcases e1 : read_u16 c with ⟨len, c1⟩
  rw [e1] at h1; simp only at h1; dsimp only
  obtain ⟨p2, h2⟩ := read_u8_shape c1
  rcases e2 : read_u8 c1 with ⟨prec, c2⟩
  rw [e2] at h2; simp only at h2; dsimp only
  split
  · rw [h2, h1]
    exact ⟨_, _, _, _, _, _, _, _, _, _, _, rfl⟩
  · obtain ⟨p3, h3⟩ := read_u16_shape c2
    rcases e3 : read_u16 c2 with ⟨hgt, c3⟩
    rw [e3] at h3; simp only at h3; dsimp only
    obtain ⟨p4, h4⟩ := read_u16_shape c3
    rcases e4 : read_u16 c3 with ⟨wid, c4⟩
    rw [e4] at h4; simp only at h4; dsimp only
    obtain ⟨p5, h5⟩ := read_u8_shape c4
    rcases e5 : read_u8 c4 with ⟨nc0, c5⟩
    rw [e5] at h5; simp only at h5; dsimp only
    split
    · rw [h5, h4, h3, h2, h1]
      exact ⟨_, _, _, _, _, _, _, _, _, _, _, rfl⟩
    · obtain ⟨p6, hs6, vs6, cq6, h6⟩ := readCompSpecs_shape nc0 0
        { c5 with height := hgt, width := wid, ncomp := nc0 }
      rw [h5] at h6 ⊢
      rw [h6, h4, h3, h2, h1]
      split <;> exact ⟨_, _, _, _, _, _, _, _, _, _, _, rfl⟩

theorem readScanComps_shape (n : Nat) : ∀ (i left : Nat) (c : Fjctx),
    ∃ p cd ca, (readScanComps n i left c).2 =
      { c with pos := p, comp_dc := cd, comp_ac := ca } := by
  induction n with
  | zero => intro i left c; exact ⟨c.pos, c.comp_dc, c.comp_ac, rfl⟩
  | succ n ih =>
    intro i left c
    unfold readScanComps
    obtain ⟨p1, h1⟩ := read_u8_shape c
    rcases e1 : read_u8 c with ⟨b1, c1⟩
    rw [e1] at h1; simp only at h1 ⊢
    obtain ⟨p2, h2⟩ := read_u8_shape c1
    rcases e2 : read_u8 c1 with ⟨tab, c2⟩
    rw [e2] at h2; simp only at h2 ⊢
    rw [h2, h1]
    obtain ⟨p, cd, ca, h⟩ := ih (i + 1) _ _
    rw [h]
    exact ⟨p, cd, ca, rfl⟩

theorem sosSkipGo_shape (fuel : Nat) : ∀ (left : Nat) (c : Fjctx),
    ∃ p, sosSkipGo fuel left c = { c with pos := p } := by
  induction fuel with
  | zero => intro left c; exact ⟨c.pos, rfl⟩
  | succ fuel ih =>
    intro left c
    unfold sosSkipGo
    split
    · exact ⟨c.pos, rfl⟩
    · obtain ⟨p1, h1⟩ := read_u8_shape c
      rcases e1 : read_u8 c with ⟨b1, c1⟩
      rw [e1] at h1; simp only at h1 ⊢
      rw [h1]
      obtain ⟨p, h⟩ := ih _ _
      rw [h]
      exact ⟨p, rfl⟩

theorem parse_sos_shape (c : Fjctx) :
    ∃ p cd ca, (parse_sos c).2 = { c with pos := p, comp_dc := cd, comp_ac := ca } := by
  unfold parse_sos
  obtain ⟨p1, h1⟩ := read_u16_shape c
  rcases e1 : read_u16 c with ⟨len, c1⟩
  rw [e1] at h1; simp only at h1 ⊢
  obtain ⟨p2, h2⟩ := read_u8_shape c1
  rcases e2 : read_u8 c1 with ⟨ns, c2⟩
  rw [e2] at h2; simp only at h2 ⊢
  obtain ⟨p3, cd3, ca3, h3⟩ := readScanComps_shape ns 0 ((u16 (len + 65534) + 65535) % 65536) c2
  rcases e3 : readScanComps ns 0 ((u16 (len + 65534) + 65535) % 65536) c2 with ⟨left3, c3⟩
  rw [e3] at h3; simp only at h3 ⊢
  obtain ⟨p4, h4⟩ := sosSkipGo_shape 65536 left3 c3
  rw [h4, h3, h2, h1]
  exact ⟨_, _, _, rfl⟩

theorem parse_dri_shape (c : Fjctx) :
    ∃ p ri, (parse_dri c).2 = { c with pos := p, restart_interval := ri } := by
  unfold parse_dri
  obtain ⟨p1, h1⟩ := read_u16_shape c
  rcases e1 : read_u16 c with ⟨len, c1⟩
  rw [e1] at h1; simp only at h1 ⊢
  obtain ⟨p2, h2⟩ := read_u16_shape c1
  rcases e2 : read_u16 c1 with ⟨ri, c2⟩
  rw [e2] at h2; simp only at h2 ⊢
  rw [h2, h1]
  exact ⟨p2, ri, rfl⟩

theorem skip_marker_shape (c : Fjctx) :
    ∃ p, skip_marker c = { c with pos := p } := by
  unfold skip_marker
  obtain ⟨p1, h1⟩ := read_u16_shape c
  rcases e1 : read_u16 c with ⟨len, c1⟩
  rw [e1] at h1; simp only at h1 ⊢
  split <;> rw [h1]
  · exact ⟨p1 + (len - 2), rfl⟩
  · exact ⟨p1, rfl⟩

theorem findMarkerGo_shape (fuel : Nat) : ∀ (c : Fjctx),
    ∃ p, (findMarkerGo fuel c).2 = { c with pos := p } := by
  induction fuel with
  | zero => intro c; exact ⟨c.pos, rfl⟩
  | succ fuel ih =>
    intro c
    unfold findMarkerGo
    obtain ⟨p1, h1⟩ := read_u8_shape c
    rcases e1 : read_u8 c with ⟨b1, c1⟩
    rw [e1] at h1; simp only at h1 ⊢
    split
    · obtain ⟨p, h⟩ := ih c1
      rw [h, h1]
      exact ⟨p, rfl⟩
    · rw [h1]
      exact ⟨p1, rfl⟩

/-- The marker-parsing footprint: the fields of the context that the
whole marker-parsing phase never writes. -/
def ParseShape (c c' : Fjctx) : Prop :=
  c'.data = c.data ∧ c'.bits = c.bits ∧ c'.nbits = c.nbits ∧
  c'.last_dc = c.last_dc ∧ c'.restarts_left = c.restarts_left ∧
  c'.next_restart = c.next_restart ∧ c'.block = c.block

theorem parseShape_refl (c : Fjctx) : ParseShape c c :=
  ⟨rfl, rfl, rfl, rfl, rfl, rfl, rfl⟩

theorem parseShape_trans {a b c : Fjctx} (h1 : ParseShape a b) (h2 : ParseShape b c) :
    ParseShape a c := by
  obtain ⟨d1, b1, n1, l1, r1, x1, k1⟩ := h1
  obtain ⟨d2, b2, n2, l2, r2, x2, k2⟩ := h2
  exact ⟨d2.trans d1, b2.trans b1, n2.trans n1, l2.trans l1,
         r2.trans r1, x2.trans x1, k2.trans k1⟩

theorem handleMarker_parseShape (b : Nat) (c : Fjctx) :
    ParseShape c (handleMarker b c).2 := by
  unfold handleMarker
  split
  · obtain ⟨p, w, hh, nc, hs, vs, cq, mw, mh, mx, my, h⟩ := parse_sof_shape c
    rcases e : parse_sof c with ⟨r, c1⟩
    rw [e] at h; simp only at h; dsimp only
    rw [h]; exact ⟨rfl, rfl, rfl, rfl, rfl, rfl, rfl⟩
  · split
    · obtain ⟨p, hf, hv, hn, h⟩ := parse_dht_shape c
      rcases e : parse_dht c with ⟨r, c1⟩
      rw [e] at h; simp only at h; dsimp only
      rw [h]; exact ⟨rfl, rfl, rfl, rfl, rfl, rfl, rfl⟩
    · split
      · obtain ⟨p, q, h⟩ := parse_dqt_shape c
        rcases e : parse_dqt c with ⟨r, c1⟩
        rw [e] at h; simp only at h; dsimp only
        rw [h]; exact ⟨rfl, rfl, rfl, rfl, rfl, rfl, rfl⟩
      · split
        · obtain ⟨p, ri, h⟩ := parse_dri_shape c
          rcases e : parse_dri c with ⟨r, c1⟩
          rw [e] at h; simp only at h; dsimp only
          rw [h]; exact ⟨rfl, rfl, rfl, rfl, rfl, rfl, rfl⟩
        · split
          · obtain ⟨p, cd, ca, h⟩ := parse_sos_shape c
            rcases e : parse_sos c with ⟨r, c1⟩
            rw [e] at h; simp only at h; dsimp only
            rw [h]; exact ⟨rfl, rfl, rfl, rfl, rfl, rfl, rfl⟩
          · split
            · exact parseShape_refl c
            · split
              · exact parseShape_refl c
              · obtain ⟨p, h⟩ := skip_marker_shape c
                dsimp only
                rw [h]; exact ⟨rfl, rfl, rfl, rfl, rfl, rfl, rfl⟩

theorem parseMarkersGo_parseShape (fuel : Nat) : ∀ (c : Fjctx),
    ParseShape c (parseMarkersGo fuel c).2 := by
  induction fuel with
  | zero => intro c; exact parseShape_refl c
  | succ fuel ih =>
    intro c
    unfold parseMarkersGo
    split
    · obtain ⟨p1, h1⟩ := read_u8_shape c
      rcases e1 : read_u8 c with ⟨b1, c1⟩
      rw [e1] at h1; simp only at h1; dsimp only
      have hc1 : ParseShape c c1 := by rw [h1]; exact ⟨rfl, rfl, rfl, rfl, rfl, rfl, rfl⟩
      split
      · exact parseShape_trans hc1 (ih c1)
      · obtain ⟨p2, h2⟩ := findMarkerGo_shape (c1.data.length + 1) c1
        rcases e2 : findMarkerGo (c1.data.length + 1) c1 with ⟨b2, c2⟩
        rw [e2] at h2; simp only at h2; dsimp only
        have hc2 : ParseShape c c2 := parseShape_trans hc1
          (by rw [h2]; exact ⟨rfl, rfl, rfl, rfl, rfl, rfl, rfl⟩)
        split
        · exact parseShape_trans hc2 (ih c2)
        · have hm := handleMarker_parseShape b2 c2
          rcases e3 : handleMarker b2 c2 with ⟨or, c3⟩
          rw [e3] at hm
          rcases or with _ | r
          · exact parseShape_trans hc2 (parseShape_trans hm (ih c3))
          · exact parseShape_trans hc2 hm
    · exact parseShape_refl c

theorem parse_markers_parseShape (c : Fjctx) :
    ParseShape c (parse_markers c).2 := by
  unfold parse_markers
  obtain ⟨p1, h1⟩ := read_u8_shape c
  rcases e1 : read_u8 c with ⟨b1, c1⟩
  rw [e1] at h1; simp only at h1; dsimp only
  have hc1 : ParseShape c c1 := by rw [h1]; exact ⟨rfl, rfl, rfl, rfl, rfl, rfl, rfl⟩
  split
  · exact hc1
  · obtain ⟨p2, h2⟩ := read_u8_shape c1
    rcases e2 : read_u8 c1 with ⟨b2, c2⟩
    rw [e2] at h2; simp only at h2; dsimp only
    have hc2 : ParseShape c c2 := parseShape_trans hc1
      (by rw [h2]; exact ⟨rfl, rfl, rfl, rfl, rfl, rfl, rfl⟩)
    split
    · exact hc2
    · exact parseShape_trans hc2 (parseMarkersGo_parseShape _ c2)

/-! ## Claim C7 -/

/-- C7: for every decode, all three per-component DC predictors are zero
immediately after the SOS marker is parsed (the context right after
`parse_markers` returns, whatever the input), and immediately after any
restart marker is consumed by `process_restart`, which also empties the
bit accumulator (`bits = 0`, `nbits = 0`). -/
theorem c7_dc_predictors_zero :
    (∀ bytes : List Nat, ((parse_markers (initCtx bytes)).2).last_dc = [0, 0, 0]) ∧
    (∀ c : Fjctx, (process_restart c).last_dc = [0, 0, 0] ∧
      (process_restart c).bits = 0 ∧ (process_restart c).nbits = 0) := by
  constructor
  · intro bytes
    obtain ⟨-, -, -, hld, -, -, -⟩ := parse_markers_parseShape (initCtx bytes)
    exact hld
  · intro c
    obtain ⟨p, h⟩ := process_restart_shape c
    rw [h]
    exact ⟨rfl, rfl, rfl⟩

/-! ## Claim C4 -/

/-- C4: `next_byte` consumes an `FF 00` stuffing pair and returns 0xFF;
on `FF xx` with `xx` nonzero it rewinds the cursor two positions (back to
the 0xFF) and returns 0; otherwise it consumes and returns the next
byte.  The hypotheses keep the examined bytes inside the buffer, as
presupposed by "the byte after it". -/
theorem c4_next_byte_cases (c : Fjctx) :
    (c.pos + 1 < c.data.length → c.data.getD c.pos 0 % 256 = 255 →
      (c.data.getD (c.pos + 1) 0 % 256 = 0 →
        next_byte c = (255, { c with pos := c.pos + 2 })) ∧
      (c.data.getD (c.pos + 1) 0 % 256 ≠ 0 →
        next_byte c = (0, c))) ∧
    (c.pos < c.data.length → c.data.getD c.pos 0 % 256 ≠ 255 →
      next_byte c = (c.data.getD c.pos 0 % 256, { c with pos := c.pos + 1 })) := by
  constructor
  · intro hlt h255
    have hp : c.pos < c.data.length := by omega
    constructor
    · intro h0
      simp only [next_byte, read_u8, hp, if_pos, if_true, h255, hlt, h0]
      simp
    · intro h0
      simp only [next_byte, read_u8, hp, if_pos, if_true, h255, hlt, h0]
      simp only [List.getD_eq_getElem?_getD] at h0
      simp [h0]
  · intro hp hne
    simp only [next_byte, read_u8, hp, if_pos, if_true, hne]
    simp [hne]

/-- Witness for `c4_next_byte_cases` at concrete buffers: an `FF 00`
pair, an `FF D8` marker, and a plain byte. -/
theorem c4_next_byte_cases_witness :
    next_byte (initCtx [255, 0, 7]) = (255, { initCtx [255, 0, 7] with pos := 2 }) ∧
    next_byte (initCtx [255, 216]) = (0, initCtx [255, 216]) ∧
    next_byte (initCtx [65, 2]) = (65, { initCtx [65, 2] with pos := 1 }) :=
  ⟨((c4_next_byte_cases (initCtx [255, 0, 7])).1 (by decide) (by decide)).1 (by decide),
   ((c4_next_byte_cases (initCtx [255, 216])).1 (by decide) (by decide)).2 (by decide),
   (c4_next_byte_cases (initCtx [65, 2])).2 (by decide) (by decide)⟩

/-! ## Claim C9 -/

/-- C9: when the first two bytes are not `FF D8` (SOI absent — including
buffers shorter than two bytes, whose missing bytes read as 0),
`fjpeg_info` fails leaving the out-parameter unchanged, and
`fjpeg_decode` fails without ever invoking the row sink. -/
theorem c9_missing_soi (bytes : List Nat) (info : Nat × Nat)
    (h : bytes.getD 0 0 % 256 ≠ 255 ∨ bytes.getD 1 0 % 256 ≠ 0xD8) :
    (fjpeg_info bytes info).1 = -1 ∧ (fjpeg_info bytes info).2 = info ∧
    fjpeg_decode bytes = (-1, []) := by
  have hinfo : fjpeg_info bytes info = (-1, info) := by
    unfold fjpeg_info
    rw [if_pos]
    exact h.elim (fun hb => Or.inr (Or.inl hb)) (fun hc => Or.inr (Or.inr hc))
  have hpm : (parse_markers (initCtx bytes)).1 = -1 := by
    unfold parse_markers
    rcases e1 : read_u8 (initCtx bytes) with ⟨b1, c1⟩
    dsimp only
    by_cases hb1 : b1 = 255
    · subst hb1
      rw [if_neg (by simp)]
      have hlen : 0 < bytes.length := by
        by_contra hl
        unfold read_u8 initCtx at e1
        rw [if_neg (by simpa [initCtx] using hl)] at e1
        exact absurd (congrArg Prod.fst e1).symm (by simp)
      have hb0 : bytes.getD 0 0 % 256 = 255 := by
        unfold read_u8 initCtx at e1
        rw [if_pos (by simpa [initCtx] using hlen)] at e1
        exact congrArg Prod.fst e1
      have hbyte1 : bytes.getD 1 0 % 256 ≠ 0xD8 := h.resolve_left (by simpa using hb0)
      have hc1 : c1 = { initCtx bytes with pos := 1 } := by
        unfold read_u8 initCtx at e1
        rw [if_pos (by simpa [initCtx] using hlen)] at e1
        exact (congrArg Prod.snd e1).symm
      rcases e2 : read_u8 c1 with ⟨b2, c2⟩
      dsimp only
      have hb2 : b2 ≠ 0xD8 := by
        unfold read_u8 at e2
        by_cases h1 : c1.pos < c1.data.length
        · rw [if_pos h1] at e2
          have : b2 = bytes.getD 1 0 % 256 := by
            rw [hc1] at e2
            exact (congrArg Prod.fst e2).symm
          rw [this]
          exact hbyte1
        · rw [if_neg h1] at e2
          have : b2 = 0 := (congrArg Prod.fst e2).symm
          simp [this]
      rw [if_pos hb2]
    · rw [if_pos hb1]
  refine ⟨by rw [hinfo], by rw [hinfo], ?_⟩
  unfold fjpeg_decode
  rcases e : parse_markers (initCtx bytes) with ⟨r, c⟩
  rw [e] at hpm
  dsimp only at hpm ⊢
  rw [e]
  dsimp only
  rw [if_pos (by rw [hpm]; decide)]

/-- Witness for `c9_missing_soi` at the concrete buffer `[0, 1]`. -/
theorem c9_missing_soi_witness :
    (fjpeg_info [0, 1] (7, 9)).1 = -1 ∧ (fjpeg_info [0, 1] (7, 9)).2 = (7, 9) ∧
    fjpeg_decode [0, 1] = (-1, []) :=
  c9_missing_soi [0, 1] (7, 9) (Or.inl (by decide))

/-! ## Claim C10 -/

theorem fjpegInfoGo_spec (bytes : List Nat) (fuel : Nat) : ∀ (p : Nat) (info : Nat × Nat),
    ((fjpegInfoGo bytes fuel p info).1 ≠ 0 → (fjpegInfoGo bytes fuel p info).2 = info) ∧
    ((fjpegInfoGo bytes fuel p info).1 = 0 →
      ∃ q, q + 9 ≤ bytes.length ∧ bytes.getD q 0 % 256 = 255 ∧
        bytes.getD (q + 1) 0 % 256 = 0xC0 ∧
        (fjpegInfoGo bytes fuel p info).2 =
          ((bytes.getD (q + 7) 0 % 256) * 256 + bytes.getD (q + 8) 0 % 256,
           (bytes.getD (q + 5) 0 % 256) * 256 + bytes.getD (q + 6) 0 % 256)) := by
  induction fuel with
  | zero =>
    intro p info
    exact ⟨fun _ => rfl, fun h => by simp [fjpegInfoGo] at h⟩
  | succ fuel ih =>
    intro p info
    unfold fjpegInfoGo
    by_cases h1 : p + 4 ≤ bytes.length
    · rw [if_pos h1]
      by_cases h2 : bytes.getD p 0 % 256 ≠ 255
      · rw [if_pos h2]
        exact ih (p + 1) info
      · rw [if_neg h2]
        dsimp only
        by_cases h3 : bytes.getD (p + 1) 0 % 256 = 0xC0
        · rw [if_pos h3]
          by_cases h4 : p + 9 > bytes.length
          · rw [if_pos h4]
            exact ⟨fun _ => rfl, fun h => by simp at h⟩
          · rw [if_neg h4]
            exact ⟨fun hne => absurd rfl hne,
              fun _ => ⟨p, by omega, not_not.mp h2, h3, rfl⟩⟩
        · rw [if_neg h3]
          by_cases h5 : bytes.getD (p + 1) 0 % 256 = 0xD9
          · rw [if_pos h5]
            exact ⟨fun _ => rfl, fun h => by simp at h⟩
          · rw [if_neg h5]
            exact ih _ info
    · rw [if_neg h1]
      exact ⟨fun _ => rfl, fun h => by simp at h⟩

/-- C10: when `fjpeg_info` fails, the caller-supplied out-parameter is
left completely unmodified; when it succeeds, the width/height written
come from a complete SOF0 header (`FF C0` with nine bytes available)
found in the buffer. -/
theorem c10_info_untouched_on_failure (bytes : List Nat) (info : Nat × Nat) :
    ((fjpeg_info bytes info).1 ≠ 0 → (fjpeg_info bytes info).2 = info) ∧
    ((fjpeg_info bytes info).1 = 0 →
      ∃ q, q + 9 ≤ bytes.length ∧ bytes.getD q 0 % 256 = 255 ∧
        bytes.getD (q + 1) 0 % 256 = 0xC0 ∧
        (fjpeg_info bytes info).2 =
          ((bytes.getD (q + 7) 0 % 256) * 256 + bytes.getD (q + 8) 0 % 256,
           (bytes.getD (q + 5) 0 % 256) * 256 + bytes.getD (q + 6) 0 % 256)) := by
  unfold fjpeg_info
  split
  · exact ⟨fun _ => rfl, fun h => by simp at h⟩
  · exact fjpegInfoGo_spec bytes (bytes.length + 1) 2 info

/-- Witness for `c10_info_untouched_on_failure`: failure leaves `(7, 9)`
in place on a short garbage buffer, and success on a minimal SOF0 stream
finds the header. -/
theorem c10_info_untouched_on_failure_witness :
    (fjpeg_info [1, 2, 3] (7, 9)).2 = (7, 9) ∧
    ∃ q, q + 9 ≤ (soiBytes ++ sofTestBytes).length ∧
      (soiBytes ++ sofTestBytes).getD q 0 % 256 = 255 ∧
      (soiBytes ++ sofTestBytes).getD (q + 1) 0 % 256 = 0xC0 ∧
      (fjpeg_info (soiBytes ++ sofTestBytes) (7, 9)).2 =
        (((soiBytes ++ sofTestBytes).getD (q + 7) 0 % 256) * 256 +
           (soiBytes ++ sofTestBytes).getD (q + 8) 0 % 256,
         ((soiBytes ++ sofTestBytes).getD (q + 5) 0 % 256) * 256 +
           (soiBytes ++ sofTestBytes).getD (q + 6) 0 % 256) :=
  ⟨(c10_info_untouched_on_failure [1, 2, 3] (7, 9)).1 (by decide),
   (c10_info_untouched_on_failure (soiBytes ++ sofTestBytes) (7, 9)).2 (by decide)⟩

/-! ## Claim C3 -/

/-- `i16` is the identity on values that fit in an `int16_t`. -/
theorem i16_eq_self {x : Int} (h1 : -32768 ≤ x) (h2 : x ≤ 32767) : i16 x = x := by
  unfold i16
  rw [Int.emod_eq_of_lt (by omega) (by omega)]
  omega

/-- In-bounds characterisation of `read_u8`. -/
theorem read_u8_at (c : Fjctx) (h : c.pos < c.data.length) :
    read_u8 c = (c.data.getD c.pos 0 % 256, { c with pos := c.pos + 1 }) := by
  unfold read_u8
  rw [if_pos h]

/-- In-bounds characterisation of `read_u16`. -/
theorem read_u16_at (c : Fjctx) (h : c.pos + 1 < c.data.length) :
    read_u16 c = (u16 ((c.data.getD c.pos 0 % 256) * 256 + c.data.getD (c.pos + 1) 0 % 256),
      { c with pos := c.pos + 2 }) := by
  unfold read_u16
  rw [read_u8_at c (by omega)]
  dsimp only
  rw [read_u8_at _ (by simpa using h)]

/-- The 8-bit DQT read loop returns exactly the next `n` buffer bytes. -/
theorem readQuantVals8_reads (n : Nat) : ∀ (c : Fjctx), c.pos + n ≤ c.data.length →
    readQuantVals n 0 c =
      ((List.range n).map (fun i => ((c.data.getD (c.pos + i) 0 % 256 : Nat) : Int)),
       { c with pos := c.pos + n }) := by
  induction n with
  | zero => intro c h; simp [readQuantVals]
  | succ n ih =>
    intro c h
    unfold readQuantVals
    rw [read_u8_at c (by omega)]
    dsimp only
    rw [if_neg (by decide)]
    rw [ih { c with pos := c.pos + 1 } (by simpa using by omega)]
    dsimp only
    rw [List.range_succ_eq_map, List.map_cons, List.map_map]
    rw [Prod.mk.injEq]
    refine ⟨?_, ?_⟩
    · rw [Nat.add_zero]
      refine congrArg₂ (· :: ·) rfl (List.map_congr_left ?_)
      intro i hi
      rw [Function.comp_apply]
      have hpi : c.pos + 1 + i = c.pos + (i + 1) := by omega
      rw [hpi]
    · have hp : c.pos + 1 + n = c.pos + (n + 1) := by omega
      rw [hp]

/-- The 16-bit DQT read loop returns the next `n` big-endian byte pairs,
each truncated through an `int16_t`. -/
theorem readQuantVals16_reads (n : Nat) : ∀ (c : Fjctx), c.pos + 2 * n ≤ c.data.length →
    readQuantVals n 1 c =
      ((List.range n).map (fun i =>
        i16 (((c.data.getD (c.pos + 2 * i) 0 % 256) * 256 +
          c.data.getD (c.pos + 2 * i + 1) 0 % 256 : Nat) : Int)),
       { c with pos := c.pos + 2 * n }) := by
  induction n with
  | zero => intro c h; simp [readQuantVals]
  | succ n ih =>
    intro c h
    unfold readQuantVals
    rw [read_u8_at c (by omega)]
    dsimp only
    rw [if_pos (by decide)]
    rw [read_u8_at { c with pos := c.pos + 1 } (by simpa using by omega)]
    dsimp only
    rw [ih { c with pos := c.pos + 1 + 1 } (by simpa using by omega)]
    dsimp only
    rw [List.range_succ_eq_map, List.map_cons, List.map_map]
    rw [Prod.mk.injEq]
    refine ⟨?_, ?_⟩
    · rw [show 2 * 0 = 0 from rfl, Nat.add_zero]
      refine congrArg₂ (· :: ·) rfl (List.map_congr_left ?_)
      intro i hi
      rw [Function.comp_apply]
      have h1 : c.pos + 1 + 1 + 2 * i = c.pos + 2 * (i + 1) := by omega
      rw [h1]
    · have hp : c.pos + 1 + 1 + 2 * n = c.pos + 2 * (n + 1) := by omega
      rw [hp]

/-- One unfolding of the `parse_dqt` loop. -/
theorem parseDqtGo_succ (fuel left : Nat) (c : Fjctx) :
    parseDqtGo (fuel + 1) left c =
      if left = 0 then ((0 : Int), c)
      else
        let (info, c) := read_u8 c
        let prec := info >>> 4
        let id := info &&& 15
        if id > 1 then ((-1 : Int), c)
        else
          let (vals, c) := readQuantVals 64 prec c
          let c := { c with qtab := c.qtab.set id (dqtScaleRow vals) }
          parseDqtGo fuel ((left + 65536 - (65 + if prec ≠ 0 then 64 else 0)) % 65536) c := rfl

/-- The `parse_dqt` loop stops once `left` reaches 0. -/
theorem parseDqtGo_done (fuel : Nat) (c : Fjctx) :
    parseDqtGo (fuel + 1) 0 c = (0, c) := by
  rw [parseDqtGo_succ, if_pos rfl]

/-- Behaviour of `parse_dqt` on a single-table 8-bit-precision segment:
the table is filled with the Winograd-scaled entries computed from the
64 raw bytes following the `info` byte. -/
theorem parse_dqt8_spec (c : Fjctx) (id : Nat)
    (hlen0 : c.data.getD c.pos 0 % 256 = 0)
    (hlen1 : c.data.getD (c.pos + 1) 0 % 256 = 67)
    (hinfo : c.data.getD (c.pos + 2) 0 % 256 = id)
    (hid : id ≤ 1)
    (hbound : c.pos + 67 ≤ c.data.length) :
    parse_dqt c = (0,
      { c with pos := c.pos + 67,
               qtab := c.qtab.set id (dqtScaleRow ((List.range 64).map (fun i =>
                 ((c.data.getD (c.pos + 3 + i) 0 % 256 : Nat) : Int)))) }) := by
  unfold parse_dqt
  rw [read_u16_at c (by omega)]
  dsimp only
  rw [hlen0, hlen1]
  rw [show u16 (u16 (0 * 256 + 67) + 65534) = 65 from by decide]
  rw [show (65536 : Nat) = 65535 + 1 from rfl, parseDqtGo_succ, if_neg (by decide)]
  dsimp only
  rw [read_u8_at _ (by simpa using by omega)]
  dsimp only
  rw [hinfo]
  interval_cases id
  · rw [if_neg (by decide)]
    rw [show (0 : Nat) >>> 4 = 0 from rfl, show (0 : Nat) &&& 15 = 0 from rfl]
    rw [readQuantVals8_reads 64 _ (by simpa using by omega)]
    dsimp only
    rw [show ((65 + 65536 - (65 + if (0 : Nat) ≠ 0 then 64 else 0)) % 65536 : Nat) = 0 from by decide]
    rw [show (65535 : Nat) = 65534 + 1 from rfl, parseDqtGo_done]
  · rw [if_neg (by decide)]
    rw [show (1 : Nat) >>> 4 = 0 from rfl, show (1 : Nat) &&& 15 = 1 from rfl]
    rw [readQuantVals8_reads 64 _ (by simpa using by omega)]
    dsimp only
    rw [show ((65 + 65536 - (65 + if (0 : Nat) ≠ 0 then 64 else 0)) % 65536 : Nat) = 0 from by decide]
    rw [show (65535 : Nat) = 65534 + 1 from rfl, parseDqtGo_done]

/-- Behaviour of `parse_dqt` on a single-table 16-bit-precision segment:
each raw value is the big-endian byte pair truncated through `int16_t`,
then Winograd-scaled. -/
theorem parse_dqt16_spec (c : Fjctx) (id : Nat)
    (hlen0 : c.data.getD c.pos 0 % 256 = 0)
    (hlen1 : c.data.getD (c.pos + 1) 0 % 256 = 131)
    (hinfo : c.data.getD (c.pos + 2) 0 % 256 = 16 + id)
    (hid : id ≤ 1)
    (hbound : c.pos + 131 ≤ c.data.length) :
    parse_dqt c = (0,
      { c with pos := c.pos + 131,
               qtab := c.qtab.set id (dqtScaleRow ((List.range 64).map (fun i =>
                 i16 (((c.data.getD (c.pos + 3 + 2 * i) 0 % 256) * 256 +
                   c.data.getD (c.pos + 3 + 2 * i + 1) 0 % 256 : Nat) : Int)))) }) := by
  unfold parse_dqt
  rw [read_u16_at c (by omega)]
  dsimp only
  rw [hlen0, hlen1]
  rw [show u16 (u16 (0 * 256 + 131) + 65534) = 129 from by decide]
  rw [show (65536 : Nat) = 65535 + 1 from rfl, parseDqtGo_succ, if_neg (by decide)]
  dsimp only
  rw [read_u8_at _ (by simpa using by omega)]
  dsimp only
  rw [hinfo]
  interval_cases id
  · rw [if_neg (by decide)]
    rw [show (16 + 0 : Nat) >>> 4 = 1 from rfl, show (16 + 0 : Nat) &&& 15 = 0 from rfl]
    rw [readQuantVals16_reads 64 _ (by simpa using by omega)]
    dsimp only
    rw [show ((129 + 65536 - (65 + if (1 : Nat) ≠ 0 then 64 else 0)) % 65536 : Nat) = 0 from by decide]
    rw [show (65535 : Nat) = 65534 + 1 from rfl, parseDqtGo_done]
  · rw [if_neg (by decide)]
    rw [show (16 + 1 : Nat) >>> 4 = 1 from rfl, show (16 + 1 : Nat) &&& 15 = 1 from rfl]
    rw [readQuantVals16_reads 64 _ (by simpa using by omega)]
    dsimp only
    rw [show ((129 + 65536 - (65 + if (1 : Nat) ≠ 0 then 64 else 0)) % 65536 : Nat) = 0 from by decide]
    rw [show (65535 : Nat) = 65534 + 1 from rfl, parseDqtGo_done]

/-- Entry `i` of a Winograd-scaled row built from per-index values. -/
theorem dqtScaleRow_getD (f : Nat → Int) (i : Nat) (hi : i < 64) :
    (dqtScaleRow ((List.range 64).map f)).getD i 0 =
      i16 ((f i * ((wquant.getD i 0 : Nat) : Int) + 4) / 8) := by
  have hw : wquant.length = 64 := by decide
  have hlen : (dqtScaleRow ((List.range 64).map f)).length = 64 := by
    unfold dqtScaleRow
    rw [List.length_zipWith, List.length_map, List.length_range, hw]
    exact Nat.min_self 64
  rw [List.getD_eq_getElem _ _ (by omega)]
  unfold dqtScaleRow
  rw [List.getElem_zipWith, List.getElem_map, List.getElem_range,
    List.getD_eq_getElem _ _ (by rw [hw]; omega)]

/-- Bound on the Winograd scale factors. -/
theorem wquant_getD_le (i : Nat) : wquant.getD i 0 ≤ 246 := by
  rcases Nat.lt_or_ge i wquant.length with h | h
  · rw [List.getD_eq_getElem _ _ h]
    have hall : ∀ x ∈ wquant, x ≤ 246 := by decide
    exact hall _ (List.getElem_mem h)
  · rw [List.getD_eq_default _ _ h]
    decide

/-- `getD` after `set` at an in-range index. -/
theorem getD_set_lt {α : Type} (l : List α) (d : α) (row : α) (id : Nat)
    (h : id < l.length) : (l.set id row).getD id d = row := by
  rw [List.getD_eq_getElem _ _ (by rw [List.length_set]; omega)]
  exact List.getElem_set_self (by rw [List.length_set]; omega)

/-- C3 (amended): after `parse_dqt` on a single-table segment the
selected table holds, at every index `i`, the value
`(int16_t)((raw´ * wquant[i] + 4) >> 3)` where `raw´` is the raw segment
value as stored through an `int16_t`.  This equals the claimed
`((raw * wquant[i]) + 4) >> 3` outright for 8-bit-precision entries, and
for 16-bit-precision entries whenever the raw value is below 2^15 and
the scaled value fits in `int16_t`; the scaling happens once, inside
`parse_dqt`. -/
theorem c3_dqt_prescale (c : Fjctx) (id : Nat) (hq : c.qtab.length = 2) :
    (c.data.getD c.pos 0 % 256 = 0 → c.data.getD (c.pos + 1) 0 % 256 = 67 →
     c.data.getD (c.pos + 2) 0 % 256 = id → id ≤ 1 → c.pos + 67 ≤ c.data.length →
      (parse_dqt c).1 = 0 ∧ ∀ i, i < 64 →
        ((parse_dqt c).2.qtab.getD id []).getD i 0 =
          (((c.data.getD (c.pos + 3 + i) 0 % 256 : Nat) : Int) *
            ((wquant.getD i 0 : Nat) : Int) + 4) / 8) ∧
    (c.data.getD c.pos 0 % 256 = 0 → c.data.getD (c.pos + 1) 0 % 256 = 131 →
     c.data.getD (c.pos + 2) 0 % 256 = 16 + id → id ≤ 1 → c.pos + 131 ≤ c.data.length →
      (parse_dqt c).1 = 0 ∧ ∀ i, i < 64 →
        ((parse_dqt c).2.qtab.getD id []).getD i 0 =
            i16 ((i16 (((c.data.getD (c.pos + 3 + 2 * i) 0 % 256) * 256 +
              c.data.getD (c.pos + 3 + 2 * i + 1) 0 % 256 : Nat) : Int) *
              ((wquant.getD i 0 : Nat) : Int) + 4) / 8) ∧
          (((c.data.getD (c.pos + 3 + 2 * i) 0 % 256) * 256 +
              c.data.getD (c.pos + 3 + 2 * i + 1) 0 % 256 : Nat) < 32768 →
           ((((c.data.getD (c.pos + 3 + 2 * i) 0 % 256) * 256 +
              c.data.getD (c.pos + 3 + 2 * i + 1) 0 % 256 : Nat) : Int) *
              ((wquant.getD i 0 : Nat) : Int) + 4) / 8 ≤ 32767 →
           ((parse_dqt c).2.qtab.getD id []).getD i 0 =
             ((((c.data.getD (c.pos + 3 + 2 * i) 0 % 256) * 256 +
               c.data.getD (c.pos + 3 + 2 * i + 1) 0 % 256 : Nat) : Int) *
               ((wquant.getD i 0 : Nat) : Int) + 4) / 8)) := by
  constructor
  · intro h0 h1 h2 h3 h4
    rw [parse_dqt8_spec c id h0 h1 h2 h3 h4]
    refine ⟨rfl, fun i hi => ?_⟩
    dsimp only
    rw [getD_set_lt _ _ _ _ (by rw [hq]; omega), dqtScaleRow_getD _ i hi]
    have hraw : c.data.getD (c.pos + 3 + i) 0 % 256 < 256 := Nat.mod_lt _ (by norm_num)
    have h5 : ((c.data.getD (c.pos + 3 + i) 0 % 256 : Nat) : Int) ≤ 255 := by
      exact_mod_cast Nat.lt_succ_iff.mp hraw
    have h6 : ((wquant.getD i 0 : Nat) : Int) ≤ 246 := by
      exact_mod_cast wquant_getD_le i
    have h7 : (0 : Int) ≤ ((c.data.getD (c.pos + 3 + i) 0 % 256 : Nat) : Int) :=
      Int.natCast_nonneg _
    have h8 : (0 : Int) ≤ ((wquant.getD i 0 : Nat) : Int) := Int.natCast_nonneg _
    have hmul : ((c.data.getD (c.pos + 3 + i) 0 % 256 : Nat) : Int) *
        ((wquant.getD i 0 : Nat) : Int) ≤ 255 * 246 := mul_le_mul h5 h6 h8 (by norm_num)
    refine i16_eq_self (le_trans (by norm_num : (-32768 : Int) ≤ 0)
      (Int.ediv_nonneg (add_nonneg (mul_nonneg (Int.natCast_nonneg _) (Int.natCast_nonneg _))
        (by norm_num)) (by norm_num))) ?_
    calc (((c.data.getD (c.pos + 3 + i) 0 % 256 : Nat) : Int) *
            ((wquant.getD i 0 : Nat) : Int) + 4) / 8
        ≤ (255 * 246 + 4) / 8 := Int.ediv_le_ediv (by norm_num) (by omega)
      _ ≤ 32767 := by norm_num
  · intro h0 h1 h2 h3 h4
    rw [parse_dqt16_spec c id h0 h1 h2 h3 h4]
    refine ⟨rfl, fun i hi => ?_⟩
    dsimp only
    rw [getD_set_lt _ _ _ _ (by rw [hq]; omega), dqtScaleRow_getD _ i hi]
    refine ⟨rfl, fun hfit hscale => ?_⟩
    have hnn : (0 : Nat) ≤ (c.data.getD (c.pos + 3 + 2 * i) 0 % 256) * 256 +
        c.data.getD (c.pos + 3 + 2 * i + 1) 0 % 256 := Nat.zero_le _
    have hin : i16 ((((c.data.getD (c.pos + 3 + 2 * i) 0 % 256) * 256 +
        c.data.getD (c.pos + 3 + 2 * i + 1) 0 % 256 : Nat) : Int)) =
        (((c.data.getD (c.pos + 3 + 2 * i) 0 % 256) * 256 +
        c.data.getD (c.pos + 3 + 2 * i + 1) 0 % 256 : Nat) : Int) := by
      refine i16_eq_self (le_trans (by norm_num : (-32768 : Int) ≤ 0) (Int.natCast_nonneg _)) ?_
      have : ((c.data.getD (c.pos + 3 + 2 * i) 0 % 256) * 256 +
          c.data.getD (c.pos + 3 + 2 * i + 1) 0 % 256 : Nat) ≤ 32767 := by omega
      exact_mod_cast this
    rw [hin]
    refine i16_eq_self (le_trans (by norm_num : (-32768 : Int) ≤ 0)
      (Int.ediv_nonneg (add_nonneg (mul_nonneg (Int.natCast_nonneg _) (Int.natCast_nonneg _))
        (by norm_num)) (by norm_num))) hscale

/-- C3 counterexample: a 16-bit-precision DQT entry with raw value 2048
is stored as -32768 (int16 overflow of 32768), while the claimed formula
`((raw * wquant[0]) + 4) >> 3` gives 32768. -/
theorem c3_counterexample :
    (parse_dqt { initCtx dqt16Bytes with pos := 2 }).1 = 0 ∧
    ((parse_dqt { initCtx dqt16Bytes with pos := 2 }).2.qtab.getD 0 []).getD 0 0 = -32768 ∧
    ((2048 * (wquant.getD 0 0 : Nat) + 4) / 8 : Nat) = 32768 ∧
    ((parse_dqt { initCtx dqt16Bytes with pos := 2 }).2.qtab.getD 0 []).getD 0 0 ≠
      ((2048 * (wquant.getD 0 0 : Nat) + 4) / 8 : Nat) :=
  ⟨rfl, by decide, by decide, by decide⟩

/-- Witness for `c3_dqt_prescale` on the all-ones 8-bit table: entry 0
becomes `(1 * 128 + 4) >> 3 = 16`. -/
theorem c3_dqt_prescale_witness :
    (parse_dqt { initCtx dqtBytes with pos := 2 }).1 = 0 ∧
    ((parse_dqt { initCtx dqtBytes with pos := 2 }).2.qtab.getD 0 []).getD 0 0 = 16 :=
  ⟨((c3_dqt_prescale { initCtx dqtBytes with pos := 2 } 0 (by decide)).1
      (by decide) (by decide) (by decide) (by decide) (by decide)).1,
   (((c3_dqt_prescale { initCtx dqtBytes with pos := 2 } 0 (by decide)).1
      (by decide) (by decide) (by decide) (by decide) (by decide)).2 0 (by decide)).trans
    (by decide)⟩

/-! ## Claim C8 -/

/-- C8 counterexample: a complete JPEG whose two DHT segments declare
table id 2 (info bytes `0x02` at offset 88 and `0x12` at offset 110)
decodes successfully — `parse_dht` masks the id with `info & 1` instead
of rejecting it. -/
theorem c8_counterexample :
    jpegDhtId2.getD 88 0 = 0x02 ∧ jpegDhtId2.getD 110 0 = 0x12 ∧
    (fjpeg_decode jpegDhtId2).1 = 0 :=
  ⟨by decide, by decide, rfl⟩

/-- C8 (amended): a DQT table id outside {0,1} makes `parse_dqt` return
-1; the marker dispatcher turns any nonzero `parse_dqt` status into the
failure result of `parse_markers`; and any nonzero `parse_markers`
status makes `fjpeg_decode` return (-1, []) with no rows delivered — so
a bad DQT id fails the whole decode.  DHT ids, by contrast, are masked
into range (see `c8_counterexample`). -/
theorem c8_dqt_id_reject :
    (∀ (c : Fjctx),
      c.pos + 2 < c.data.length →
      u16 (u16 ((c.data.getD c.pos 0 % 256) * 256 +
        c.data.getD (c.pos + 1) 0 % 256) + 65534) ≠ 0 →
      c.data.getD (c.pos + 2) 0 % 256 &&& 15 > 1 →
      (parse_dqt c).1 = -1) ∧
    (∀ (c : Fjctx), (parse_dqt c).1 ≠ 0 →
      handleMarker 0xDB c = (some (-1), (parse_dqt c).2)) ∧
    (∀ (bytes : List Nat), (parse_markers (initCtx bytes)).1 ≠ 0 →
      fjpeg_decode bytes = (-1, [])) := by
  refine ⟨?_, ?_, ?_⟩
  · intro c hbound hleft hid
    unfold parse_dqt
    rw [read_u16_at c (by omega)]
    dsimp only
    rw [show (65536 : Nat) = 65535 + 1 from rfl, parseDqtGo_succ, if_neg hleft]
    dsimp only
    rw [read_u8_at _ (by simpa using hbound)]
    dsimp only
    rw [if_pos hid]
  · intro c hr
    unfold handleMarker
    rw [if_neg (by decide), if_neg (by decide), if_pos (by decide : (0xDB:Nat) = 0xDB)]
    rcases e : parse_dqt c with ⟨r, c1⟩
    dsimp only
    rw [e] at hr
    dsimp only at hr
    rw [if_pos hr]
  · intro bytes hr
    unfold fjpeg_decode
    dsimp only
    rcases e : parse_markers (initCtx bytes) with ⟨r, pc⟩
    rw [e] at hr
    dsimp only at hr ⊢
    rw [if_pos hr]

/-- Witness for `c8_dqt_id_reject`: a five-byte DQT segment declaring
table id 2 fails in `parse_dqt`; the dispatcher propagates that failure;
and the complete stream `FF D8 FF DB 00 03 02` — SOI followed by a DQT
whose table id is 2 — makes `fjpeg_decode` fail end-to-end with no rows
delivered. -/
theorem c8_dqt_id_reject_witness :
    (parse_dqt (initCtx [0, 4, 0x02, 9, 9])).1 = -1 ∧
    handleMarker 0xDB (initCtx [0, 4, 0x02, 9, 9]) =
      (some (-1), (parse_dqt (initCtx [0, 4, 0x02, 9, 9])).2) ∧
    fjpeg_decode [0xFF, 0xD8, 0xFF, 0xDB, 0x00, 0x03, 0x02] = (-1, []) :=
  ⟨c8_dqt_id_reject.1 (initCtx [0, 4, 0x02, 9, 9]) (by decide) (by decide) (by decide),
   c8_dqt_id_reject.2.1 (initCtx [0, 4, 0x02, 9, 9]) (by decide),
   c8_dqt_id_reject.2.2 [0xFF, 0xD8, 0xFF, 0xDB, 0x00, 0x03, 0x02] (by decide)⟩

/-! ## Claim C5 -/

/-- One unfolding of the AC coefficient loop. -/
theorem acLoop_succ (fuel k t : Nat) (q : List Int) (c : Fjctx) :
    acLoop (fuel + 1) k t q c =
      (if k < 64 then
        let (s, c) := huff_decode c t
        let run := s >>> 4
        let size := s &&& 15
        if size = 0 then
          (if run = 15 then acLoop fuel (k + 15 + 1) t q c else some c)
        else
          let k2 := k + run
          if k2 ≥ 64 then none
          else
            let (v, c) := get_bits c size
            let ac := huff_extend v size
            acLoop fuel (k2 + 1) t q
              { c with block := c.block.set (zag.getD k2 0) (i16 (ac * q.getD k2 0)) }
      else some c) := rfl

/-- The MCU row loop fails with status -1 and exactly the rows already
delivered, when rows `0..m-1` succeed and row `m` fails. -/
theorem decodeRowsGo_fail_after (rs hs vs nh nv : Nat) :
    ∀ (m n y : Nat) (c c' : Fjctx) (rows : List (Nat × Nat × List Nat)),
    decodeRowsUpTo rs hs vs nh nv m y c = some (c', rows) →
    decodeRowOnce rs hs vs nh nv (y + m) c' = none →
    m < n →
    decodeRowsGo rs hs vs nh nv n y c = (-1, rows) := by
  intro m
  induction m with
  | zero =>
    intro n y c c' rows hup hfail hlt
    injection hup with hup
    rw [Prod.mk.injEq] at hup
    obtain ⟨h1, h2⟩ := hup
    subst h1
    subst h2
    obtain ⟨n, rfl⟩ : ∃ k, n = k + 1 := ⟨n - 1, by omega⟩
    unfold decodeRowsGo
    rw [Nat.add_zero] at hfail
    rw [hfail]
  | succ m ih =>
    intro n y c c' rows hup hfail hlt
    unfold decodeRowsUpTo at hup
    rcases eA : decodeRowOnce rs hs vs nh nv y c with _ | ⟨cA, rowsA⟩ <;>
      rw [eA] at hup <;> simp only at hup
    · exact Option.noConfusion hup
    · rcases eB : decodeRowsUpTo rs hs vs nh nv m (y + 1) cA with _ | ⟨cB, rest⟩ <;>
        rw [eB] at hup <;> simp only at hup
      · exact Option.noConfusion hup
      · injection hup with hup
        rw [Prod.mk.injEq] at hup
        obtain ⟨h1, h2⟩ := hup
        subst h1
        subst h2
        obtain ⟨n, rfl⟩ : ∃ k, n = k + 1 := ⟨n - 1, by omega⟩
        unfold decodeRowsGo
        rw [eA]
        simp only
        have hfail2 : decodeRowOnce rs hs vs nh nv (y + 1 + m) cB = none := by
          rw [show y + 1 + m = y + (m + 1) from by omega]
          exact hfail
        rw [ih n (y + 1) cA cB rest eB hfail2 (by omega)]

/-- C5: an AC run/length symbol with nonzero size whose run pushes the
coefficient index `k` to 64 or beyond makes the AC loop (and hence
`decode_block`) fail; and whenever an MCU row fails after `m` successful
MCU rows, `fjpeg_decode` returns -1 with exactly the rows already
delivered to the sink. -/
theorem c5_ac_overflow_fails :
    (∀ (fuel k t : Nat) (q : List Int) (c : Fjctx),
      k < 64 → (huff_decode c t).1 &&& 15 ≠ 0 →
      64 ≤ k + ((huff_decode c t).1 >>> 4) →
      acLoop (fuel + 1) k t q c = none) ∧
    (∀ (bytes : List Nat) (m : Nat) (c' : Fjctx) (rows : List (Nat × Nat × List Nat)),
      (parse_markers (initCtx bytes)).1 = 0 →
      ¬((parse_markers (initCtx bytes)).2.width = 0 ∨
        (parse_markers (initCtx bytes)).2.height = 0) →
      (let c0 := (parse_markers (initCtx bytes)).2
       let c1 := if c0.restart_interval ≠ 0 then
           { c0 with restarts_left := c0.restart_interval, next_restart := 0 } else c0
       let rs := c1.width
       let hs := if c1.ncomp > 1 ∧ c1.hsamp.getD 0 0 > 1 then 1 else 0
       let vs := if c1.ncomp > 1 ∧ c1.vsamp.getD 0 0 > 1 then 1 else 0
       let nh := if c1.ncomp = 1 then 1 else c1.hsamp.getD 0 0
       let nv := if c1.ncomp = 1 then 1 else c1.vsamp.getD 0 0
       decodeRowsUpTo rs hs vs nh nv m 0 c1 = some (c', rows) ∧
       decodeRowOnce rs hs vs nh nv m c' = none ∧ m < c1.mcus_y) →
      fjpeg_decode bytes = (-1, rows)) := by
  constructor
  · intro fuel k t q c hk hsz hrun
    rw [acLoop_succ, if_pos hk]
    rcases e : huff_decode c t with ⟨s, c1⟩
    rw [e] at hsz hrun
    dsimp only at hsz hrun ⊢
    rw [if_neg hsz, if_pos (by omega)]
  · intro bytes m c' rows hpm hwh hlet
    simp only at hlet
    obtain ⟨hup, hfail, hlt⟩ := hlet
    unfold fjpeg_decode
    rcases e : parse_markers (initCtx bytes) with ⟨r, c0⟩
    rw [e] at hpm hwh hup hfail hlt
    dsimp only at hpm hwh hup hfail hlt ⊢
    rw [e]
    dsimp only
    subst hpm
    rw [if_neg (by decide), if_neg hwh]
    have hfail0 := hfail
    rw [show m = 0 + m from by omega] at hfail0
    exact decodeRowsGo_fail_after _ _ _ _ _ m _ 0 _ c' rows hup hfail0 hlt

/-- Witness for `c5_ac_overflow_fails`: the single-symbol 0xF1 AC table
at `k = 49` (so `k + run = 64`), and the complete malformed JPEG
`jpegAcOverflow`, which fails with no rows delivered. -/
theorem c5_ac_overflow_fails_witness :
    acLoop 1 49 2 []
      { initCtx [] with
          nbits := 32,
          huff := (initCtx []).huff.set 2 (huff_build ([1] ++ List.replicate 15 0)),
          huff_val := (initCtx []).huff_val.set 2 ([0xF1] ++ List.replicate 255 0) } = none ∧
    fjpeg_decode jpegAcOverflow = (-1, []) :=
  ⟨c5_ac_overflow_fails.1 0 49 2 [] _ (by decide) (by decide) (by decide),
   c5_ac_overflow_fails.2 jpegAcOverflow 0 _ [] rfl (by decide) ⟨rfl, rfl, by decide⟩⟩

theorem range'_min_concat (a M H t : Nat) :
    List.range' a (min M (H - a)) ++ List.range' (a + M) (min t (H - (a + M))) =
    List.range' a (min (M + t) (H - a)) := by
  by_cases hc : a + M ≤ H
  · rw [show min M (H - a) = M from by omega,
        show min (M + t) (H - a) = min t (H - (a + M)) + M from by omega]
    have := List.range'_append a M (min t (H - (a + M))) 1
    simp only [one_mul] at this
    exact this
  · rw [show min M (H - a) = H - a from by omega,
        show H - (a + M) = 0 from by omega,
        show min (M + t) (H - a) = H - a from by omega]
    simp

theorem entShape_geom {c c' : Fjctx} (h : EntShape c c') :
    c'.width = c.width ∧ c'.height = c.height ∧ c'.mcu_h = c.mcu_h ∧
      c'.mcus_x = c.mcus_x := by
  obtain ⟨p, b, n, ld, blk, rl, nr, h⟩ := h
  subst h
  exact ⟨rfl, rfl, rfl, rfl⟩

theorem emitRowsGo_proj (mcu_y : Nat) (c : Fjctx) (buf : List Nat) :
    ∀ (n py : Nat),
    (emitRowsGo mcu_y c buf n py).map (fun r => (r.1, r.2.1)) =
      (List.range' (mcu_y * c.mcu_h + py)
          (min n (c.height - (mcu_y * c.mcu_h + py)))).map
        (fun y => (y, c.width)) := by
  intro n
  induction n with
  | zero => intro py; simp [emitRowsGo]
  | succ n ih =>
    intro py
    unfold emitRowsGo
    by_cases hge : mcu_y * c.mcu_h + py ≥ c.height
    · rw [if_pos hge]
      rw [show c.height - (mcu_y * c.mcu_h + py) = 0 from by omega]
      simp
    · rw [if_neg hge]
      simp only [List.map_cons]
      rw [ih (py + 1),
          show mcu_y * c.mcu_h + (py + 1) = (mcu_y * c.mcu_h + py) + 1 from by omega,
          show min (n + 1) (c.height - (mcu_y * c.mcu_h + py)) =
            (min n (c.height - ((mcu_y * c.mcu_h + py) + 1))) + 1 from by omega,
          List.range'_succ]
      simp

theorem decodeRowsGo_proj (rs hs vs nh nv : Nat) :
    ∀ (n y : Nat) (c : Fjctx) (st : Int) (rows : List (Nat × Nat × List Nat)),
    decodeRowsGo rs hs vs nh nv n y c = (st, rows) → st = 0 →
    rows.map (fun r => (r.1, r.2.1)) =
      (List.range' (y * c.mcu_h)
          (min (n * c.mcu_h) (c.height - y * c.mcu_h))).map
        (fun z => (z, c.width)) := by
  intro n
  induction n with
  | zero =>
    intro y c st rows h hst
    unfold decodeRowsGo at h
    rw [Prod.mk.injEq] at h
    obtain ⟨-, h⟩ := h
    subst h
    simp
  | succ n ih =>
    intro y c st rows h hst
    unfold decodeRowsGo at h
    rcases e1 : decodeRowOnce rs hs vs nh nv y c with _ | ⟨c1, rows1⟩ <;>
      rw [e1] at h <;> simp only at h
    · rw [Prod.mk.injEq] at h
      obtain ⟨h, -⟩ := h
      rw [← h] at hst
      exact absurd hst (by decide)
    · rcases e2 : decodeRowsGo rs hs vs nh nv n (y + 1) c1 with ⟨st2, rest⟩
      rw [e2] at h
      simp only at h
      rw [Prod.mk.injEq] at h
      obtain ⟨h1, h2⟩ := h
      subst h1
      subst h2
      -- unpack decodeRowOnce
      unfold decodeRowOnce at e1
      simp only at e1
      rcases e3 : mcuXGo rs hs vs nh nv y c.mcus_x 0 c
          (List.replicate (rs * c.mcu_h) 0) with _ | ⟨c2, buf2⟩ <;>
        rw [e3] at e1 <;> simp only at e1
      · exact Option.noConfusion e1
      · rw [Option.some.injEq, Prod.mk.injEq] at e1
        obtain ⟨ec, erows⟩ := e1
        obtain ⟨hw, hh, hm, -⟩ := entShape_geom (mcuXGo_shape rs hs vs nh nv y _ _ _ _ _ _ e3)
        have hrows1 : rows1.map (fun r => (r.1, r.2.1)) =
            (List.range' (y * c.mcu_h) (min c.mcu_h (c.height - y * c.mcu_h))).map
              (fun z => (z, c.width)) := by
          rw [← erows, emitRowsGo_proj]
          rw [hw, hh, hm]
          simp
        have hrest := ih (y + 1) c1 st2 rest e2 hst
        rw [← ec] at hrest
        rw [hw, hh, hm] at hrest
        rw [List.map_append, hrows1, hrest,
            show (y + 1) * c.mcu_h = y * c.mcu_h + c.mcu_h from by ring,
            ← List.map_append, range'_min_concat,
            show c.mcu_h + n * c.mcu_h = (n + 1) * c.mcu_h from by ring]

theorem decodeRowsGo_top (rs hs vs nh nv : Nat) (n : Nat) (c : Fjctx)
    (h0 : (decodeRowsGo rs hs vs nh nv n 0 c).1 = 0)
    (hg : c.height ≤ n * c.mcu_h) :
    (decodeRowsGo rs hs vs nh nv n 0 c).2.map (fun r => (r.1, r.2.1)) =
      (List.range c.height).map (fun y => (y, c.width)) := by
  rcases e : decodeRowsGo rs hs vs nh nv n 0 c with ⟨st, rows⟩
  rw [e] at h0
  dsimp only at h0 ⊢
  rw [decodeRowsGo_proj rs hs vs nh nv n 0 c st rows e h0,
      show (0 : Nat) * c.mcu_h = 0 from by ring, Nat.sub_zero,
      Nat.min_eq_right hg, List.range_eq_range']

/-- C1: on a successful decode, the sink is called once per image row,
with row indices 0, 1, …, height−1 in order and width argument equal to
the image width (under the parsed geometry invariant
`height ≤ mcus_y * mcu_h`, which the SOF handler establishes whenever
`mcu_h ≠ 0`). -/
theorem c1_rows_in_order (bytes : List Nat)
    (h0 : (fjpeg_decode bytes).1 = 0)
    (hg : (parse_markers (initCtx bytes)).2.height ≤
          (parse_markers (initCtx bytes)).2.mcus_y *
            (parse_markers (initCtx bytes)).2.mcu_h) :
    (fjpeg_decode bytes).2.map (fun r => (r.1, r.2.1)) =
      (List.range (parse_markers (initCtx bytes)).2.height).map
        (fun y => (y, (parse_markers (initCtx bytes)).2.width)) := by
  unfold fjpeg_decode at h0 ⊢
  dsimp only at h0 ⊢
  rcases e : parse_markers (initCtx bytes) with ⟨r, pc⟩
  rw [e] at h0 hg
  dsimp only at h0 hg
  dsimp only
  by_cases hr : r ≠ 0
  · rw [if_pos hr] at h0
    exact absurd h0 (by decide)
  · rw [if_neg hr] at h0 ⊢
    by_cases hwh : pc.width = 0 ∨ pc.height = 0
    · rw [if_pos hwh] at h0
      exact absurd h0 (by decide)
    · rw [if_neg hwh] at h0 ⊢
      by_cases hri : pc.restart_interval ≠ 0
      · rw [if_pos hri] at h0 ⊢
        exact decodeRowsGo_top _ _ _ _ _ _ _ h0 hg
      · rw [if_neg hri] at h0 ⊢
        exact decodeRowsGo_top _ _ _ _ _ _ _ h0 hg

/-- Witness for `c1_rows_in_order`: the 8×8 grayscale stream decodes
successfully and its sink trace visits rows 0–7, each with width 8. -/
theorem c1_rows_in_order_witness :
    (fjpeg_decode jpegGray8).2.map (fun r => (r.1, r.2.1)) =
      (List.range (parse_markers (initCtx jpegGray8)).2.height).map
        (fun y => (y, (parse_markers (initCtx jpegGray8)).2.width)) :=
  c1_rows_in_order jpegGray8 (by decide) (by decide)

theorem clamp8_le (x : Int) : clamp8 x ≤ 255 := by
  unfold clamp8
  split
  · omega
  · split <;> omega

theorem rgb565_gray (Y : Nat) (h : Y ≤ 255) :
    rgb565 Y 128 128 =
      ((Y &&& 0xF8) <<< 8) ||| ((Y &&& 0xFC) <<< 3) ||| (Y >>> 3) := by
  unfold rgb565
  norm_num
  rw [if_neg (by omega), if_neg (by omega), Int.toNat_natCast]

set_option maxHeartbeats 2000000 in
/-- C6 (corrected): for a DC-only block with DC coefficient `d` and raw
quantization entry 1 (prescaled to `(1*128+4)>>3 = 16`), the decoded
pixel block is uniform with `Y = clamp8(((d*16 + 64) >> 7) + 128)` — not
the claimed `clamp(d + 128)` — and the grayscale pixel delivered through
the MCU pixel path is `rgb565 Y 128 128`, which packs as
`((Y&0xF8)<<8) | ((Y&0xFC)<<3) | (Y>>3)`. -/
theorem c6_1x1_dc_pixel (d : Int) (Y : Nat)
    (hd : -2048 ≤ d ∧ d ≤ 2047)
    (hY : Y = clamp8 ((d * 16 + 64) / 128 + 128)) :
    idct_cols (idct_rows (i16 (d * 16) :: List.replicate 63 0)) =
      List.replicate 64 Y ∧
    mcuPixel 1 1 0 0
      [idct_cols (idct_rows (i16 (d * 16) :: List.replicate 63 0))]
      (List.replicate 64 0) (List.replicate 64 0) 0 0 = rgb565 Y 128 128 ∧
    rgb565 Y 128 128 =
      ((Y &&& 0xF8) <<< 8) ||| ((Y &&& 0xFC) <<< 3) ||| (Y >>> 3) := by
  obtain ⟨hd1, hd2⟩ := hd
  have hi : i16 (d * 16) = d * 16 := i16_eq_self (by omega) (by omega)
  have h1 : idct_cols (idct_rows (i16 (d * 16) :: List.replicate 63 0)) =
      List.replicate 64 Y := by
    rw [hi, hY]
    rfl
  exact ⟨h1, by rw [h1]; rfl, rgb565_gray Y (hY ▸ clamp8_le _)⟩

/-- C6 counterexample: the 1×1 grayscale stream `jpeg1x1d8` (DC
coefficient 8, raw q[0] = 1) decodes to the single pixel 0x8410, whereas
the claim predicts Y = clamp(8 + 128) = 136 and pixel 0x8C51. -/
theorem c6_counterexample :
    fjpeg_decode jpeg1x1d8 = (0, [(0, 1, [0x8410])]) ∧
    clamp8 (8 + 128) = 136 ∧
    ((136 &&& 0xF8) <<< 8) ||| ((136 &&& 0xFC) <<< 3) ||| ((136 : Nat) >>> 3) = 0x8C51 ∧
    (0x8410 : Nat) ≠ 0x8C51 :=
  ⟨by decide, by decide, by decide, by decide⟩

/-- Witness for `c6_1x1_dc_pixel` at d = 8 (the DC coefficient of
`jpeg1x1d8`), giving Y = 129 and packed pixel 0x8410. -/
theorem c6_1x1_dc_pixel_witness :
    idct_cols (idct_rows (i16 (8 * 16) :: List.replicate 63 0)) =
      List.replicate 64 129 ∧
    mcuPixel 1 1 0 0
      [idct_cols (idct_rows (i16 (8 * 16) :: List.replicate 63 0))]
      (List.replicate 64 0) (List.replicate 64 0) 0 0 = rgb565 129 128 128 ∧
    rgb565 129 128 128 =
      ((129 &&& 0xF8) <<< 8) ||| ((129 &&& 0xFC) <<< 3) ||| ((129 : Nat) >>> 3) :=
  c6_1x1_dc_pixel 8 129 ⟨by decide, by decide⟩ (by decide)

theorem mul_two_or_bit (x b : Nat) (hb : b < 2) : x * 2 ||| b = x * 2 + b := by
  interval_cases b
  · simp
  · apply Nat.eq_of_testBit_eq
    intro k
    cases k with
    | zero =>
      rw [Nat.testBit_or]
      simp only [Nat.testBit_zero]
      rw [show (x * 2 + 1) % 2 = 1 from by omega, show x * 2 % 2 = 0 from by omega]
      simp
    | succ k =>
      rw [Nat.testBit_or]
      rw [Nat.testBit_succ, Nat.testBit_succ, Nat.testBit_succ]
      rw [show (x * 2 + 1) / 2 = x from by omega, show x * 2 / 2 = x from by omega]
      simp

theorem fillBitsGo_empty :
    ∀ (fuel : Nat) (c : Fjctx), c.data = [] → c.bits < 2 ^ 32 →
    ∃ n, fillBitsGo fuel c = { c with nbits := n } := by
  intro fuel
  induction fuel with
  | zero => intro c h hb; exact ⟨c.nbits, rfl⟩
  | succ fuel ih =>
    intro c h hb
    unfold fillBitsGo
    by_cases hn : c.nbits ≤ 24
    · rw [if_pos hn]
      have hb' : c.bits < 4294967296 := by omega
      have hstep : fillStep c = { c with nbits := c.nbits + 8 } := by
        have h1 : read_u8 c = (0, c) := by
          unfold read_u8
          rw [if_neg]
          rw [h]
          simp
        unfold fillStep next_byte
        rw [h1]
        dsimp only
        rw [if_neg (by norm_num)]
        dsimp only
        simp only [Nat.zero_shiftLeft, Nat.or_zero, u32, Nat.mod_eq_of_lt hb']
      rw [hstep]
      obtain ⟨n, e⟩ := ih { c with nbits := c.nbits + 8 } h hb
      exact ⟨n, e⟩
    · rw [if_neg hn]
      exact ⟨c.nbits, rfl⟩

theorem get_bit_empty (c : Fjctx) (h : c.data = []) (hb : c.bits < 2 ^ 32) :
    ∃ n, get_bit c =
      ((c.bits >>> 31) &&& 1, { c with bits := u32 (c.bits <<< 1), nbits := n }) := by
  unfold get_bit fill_bits
  obtain ⟨n, e⟩ := fillBitsGo_empty 5 c h hb
  rw [e]
  exact ⟨n - 1, rfl⟩

theorem canonFrom_lower :
    ∀ (i : Nat) (cs : List Nat) (code : Nat), i ≤ cs.length →
    code * 2 ^ i ≤ canonFrom cs code i := by
  intro i
  induction i with
  | zero => intro cs code h; simp [canonFrom]
  | succ i ih =>
    intro cs code h
    rcases cs with _ | ⟨cnt, rest⟩
    · simp at h
    · simp only [canonFrom]
      have h1 : i ≤ rest.length := by simp at h; omega
      calc code * 2 ^ (i + 1) = code * 2 * 2 ^ i := by ring
        _ ≤ (code + cnt) * 2 * 2 ^ i := by
              exact Nat.mul_le_mul_right _ (Nat.mul_le_mul_right _ (Nat.le_add_right _ _))
        _ ≤ canonFrom rest ((code + cnt) * 2) i := ih rest _ h1

theorem canonFrom_kraft :
    ∀ (i : Nat) (cs : List Nat) (code k : Nat), i ≤ k → i < cs.length →
    (canonFrom cs code i + cs.getD i 0) * 2 ^ (k - i) ≤
      code * 2 ^ k + kraftW cs (2 ^ k) := by
  intro i
  induction i with
  | zero =>
    intro cs code k hk hi
    rcases cs with _ | ⟨cnt, rest⟩
    · simp at hi
    · simp only [canonFrom, kraftW, List.getD_cons_zero, Nat.sub_zero]
      calc (code + cnt) * 2 ^ k = code * 2 ^ k + cnt * 2 ^ k := by ring
        _ ≤ code * 2 ^ k + (cnt * 2 ^ k + kraftW rest (2 ^ k / 2)) := by omega
  | succ i ih =>
    intro cs code k hk hi
    rcases cs with _ | ⟨cnt, rest⟩
    · simp at hi
    · simp only [canonFrom, kraftW, List.getD_cons_succ]
      have hk1 : 1 ≤ k := by omega
      have e1 : k - (i + 1) = (k - 1) - i := by omega
      have e2 : (2 : Nat) ^ k / 2 = 2 ^ (k - 1) := by
        rw [show k = (k - 1) + 1 from by omega, pow_succ]
        simp
      have e3 : (2 : Nat) ^ k = 2 ^ (k - 1) * 2 := by
        rw [← pow_succ]
        congr 1
        omega
      have h1 := ih rest ((code + cnt) * 2) (k - 1) (by omega)
        (by simp at hi; omega)
      rw [e1, e2, e3]
      calc (canonFrom rest ((code + cnt) * 2) i + rest.getD i 0) * 2 ^ (k - 1 - i)
          ≤ (code + cnt) * 2 * 2 ^ (k - 1) + kraftW rest (2 ^ (k - 1)) := h1
        _ = code * (2 ^ (k - 1) * 2) + cnt * (2 ^ (k - 1) * 2) +
              kraftW rest (2 ^ (k - 1)) := by ring
        _ ≤ _ := by omega

theorem shift_register_step (rem i : Nat) (hi : i ≤ 15) (h : rem < 2 ^ (i + 1)) :
    ((rem * 2 ^ (31 - i)) >>> 31) &&& 1 = rem / 2 ^ i ∧
    u32 ((rem * 2 ^ (31 - i)) <<< 1) = (rem % 2 ^ i) * 2 ^ (32 - i) := by
  have hP0 : (0:Nat) < 2 ^ i := pow_pos (by norm_num) _
  have hq : rem / 2 ^ i < 2 := by
    rw [Nat.div_lt_iff_lt_mul hP0]
    calc rem < 2 ^ (i + 1) := h
      _ = 2 * 2 ^ i := by ring
  have hdm : rem / 2 ^ i * 2 ^ i + rem % 2 ^ i = rem := Nat.div_add_mod' rem (2 ^ i)
  have hmod : rem % 2 ^ i < 2 ^ i := Nat.mod_lt _ hP0
  have e31 : (2:Nat) ^ i * 2 ^ (31 - i) = 2 ^ 31 := by
    rw [← pow_add]; congr 1; omega
  have e1 : rem * 2 ^ (31 - i) =
      rem / 2 ^ i * 2 ^ 31 + rem % 2 ^ i * 2 ^ (31 - i) := by
    calc rem * 2 ^ (31 - i)
        = (rem / 2 ^ i * 2 ^ i + rem % 2 ^ i) * 2 ^ (31 - i) := by rw [hdm]
      _ = rem / 2 ^ i * (2 ^ i * 2 ^ (31 - i)) + rem % 2 ^ i * 2 ^ (31 - i) := by ring
      _ = _ := by rw [e31]
  have hB : rem % 2 ^ i * 2 ^ (31 - i) < 2 ^ 31 := by
    calc rem % 2 ^ i * 2 ^ (31 - i) < 2 ^ i * 2 ^ (31 - i) :=
          (Nat.mul_lt_mul_right (pow_pos (by norm_num) _)).mpr hmod
      _ = 2 ^ 31 := e31
  constructor
  · rw [Nat.shiftRight_eq_div_pow, e1]
    rw [Nat.mul_comm (rem / 2 ^ i) (2 ^ 31), Nat.mul_add_div (by norm_num),
        Nat.div_eq_of_lt hB, Nat.add_zero]
    rw [Nat.and_one_is_mod, Nat.mod_eq_of_lt hq]
  · rw [Nat.shiftLeft_eq, pow_one]
    have e2 : rem * 2 ^ (31 - i) * 2 =
        rem / 2 ^ i * 2 ^ 32 + rem % 2 ^ i * 2 ^ (32 - i) := by
      calc rem * 2 ^ (31 - i) * 2
          = (rem / 2 ^ i * 2 ^ 31 + rem % 2 ^ i * 2 ^ (31 - i)) * 2 := by rw [e1]
        _ = rem / 2 ^ i * (2 ^ 31 * 2) + rem % 2 ^ i * (2 ^ (31 - i) * 2) := by ring
        _ = _ := by
              rw [show (2:Nat) ^ 31 * 2 = 2 ^ 32 from by norm_num,
                  show (2:Nat) ^ (31 - i) * 2 = 2 ^ (32 - i) from by
                    rw [← pow_succ]; congr 1; omega]
    rw [e2]
    simp only [u32]
    rw [show (4294967296:Nat) = 2 ^ 32 from by norm_num]
    rw [Nat.mul_comm (rem / 2 ^ i) (2 ^ 32), Nat.mul_add_mod]
    have hX : rem % 2 ^ i * 2 ^ (32 - i) < 2 ^ 32 := by
      calc rem % 2 ^ i * 2 ^ (32 - i) < 2 ^ i * 2 ^ (32 - i) :=
            (Nat.mul_lt_mul_right (pow_pos (by norm_num) _)).mpr hmod
        _ = 2 ^ 32 := by rw [← pow_add]; congr 1; omega
    exact Nat.mod_eq_of_lt hX

theorem getD_le_prefSum : ∀ (i : Nat) (cs : List Nat), i < cs.length →
    cs.getD i 0 ≤ prefSum cs (i + 1) := by
  intro i
  induction i with
  | zero =>
    intro cs h
    rcases cs with _ | ⟨a, t⟩
    · simp at h
    · simp [prefSum]
  | succ i ih =>
    intro cs h
    rcases cs with _ | ⟨a, t⟩
    · simp at h
    · simp only [List.getD_cons_succ, prefSum]
      have := ih t (by simp at h; omega)
      omega

theorem huffDecodeGo_canonical :
    ∀ (i : Nat) (cs : List Nat) (code j v rem r : Nat) (syms : List Nat) (c : Fjctx),
    i ≤ 15 →
    i < cs.length →
    r < cs.getD i 0 →
    canonFrom cs code i + cs.getD i 0 ≤ 65535 →
    j + prefSum cs (i + 1) ≤ 256 →
    canonFrom cs code i + r = v * 2 ^ i + rem →
    rem < 2 ^ i →
    c.data = [] →
    c.bits = rem * 2 ^ (32 - i) →
    (huffDecodeGo (huffBuildGo cs code j) syms v c).1 =
      syms.getD (j + prefSum cs i + r) 0 := by
  intro i
  induction i with
  | zero =>
    intro cs code j v rem r syms c h15 hi hr hs ht hv hrem hd hb
    rcases cs with _ | ⟨cnt, rest⟩
    · simp at hi
    · simp only [canonFrom, List.getD_cons_zero] at hs hv hr
      simp only [prefSum] at ht ⊢
      simp only [pow_zero, Nat.mul_one] at hv hrem
      have hcnt : cnt ≠ 0 := by omega
      have hveq : v = code + r := by omega
      simp only [huffBuildGo]
      rw [if_neg hcnt]
      simp only [huffDecodeGo]
      have hmx : u16 (code + cnt - 1) = code + cnt - 1 := by
        simp only [u16]; omega
      rw [hmx]
      rw [if_pos ⟨by omega, by omega⟩]
      have hidx : (j + u16 (v + 65536 - code) % 256) % 256 = j + 0 + r := by
        simp only [u16]
        omega
      rw [hidx]
  | succ i ih =>
    intro cs code j v rem r syms c h15 hi hr hs ht hv hrem hd hb
    rcases cs with _ | ⟨cnt, rest⟩
    · simp at hi
    · simp only [canonFrom, List.getD_cons_succ] at hs hv hr
      simp only [prefSum] at ht ⊢
      have hil : i ≤ rest.length := by
        simp only [List.length_cons] at hi
        omega
      have hil' : i < rest.length := by
        simp only [List.length_cons] at hi
        omega
      have hlow := canonFrom_lower i rest ((code + cnt) * 2) hil
      have hP : (0:Nat) < 2 ^ (i + 1) := pow_pos (by norm_num) _
      have hP0 : (0:Nat) < 2 ^ i := pow_pos (by norm_num) _
      have h2P : 2 ≤ 2 ^ (i + 1) := by
        calc (2:Nat) = 2 ^ 1 := (pow_one 2).symm
          _ ≤ 2 ^ (i + 1) := Nat.pow_le_pow_right (by norm_num) (by omega)
      have hFle : canonFrom rest ((code + cnt) * 2) i + r ≤ 65534 := by omega
      have hvP : v * 2 ^ (i + 1) ≤ 65534 := by
        calc v * 2 ^ (i + 1) ≤ v * 2 ^ (i + 1) + rem := Nat.le_add_right _ _
          _ = canonFrom rest ((code + cnt) * 2) i + r := hv.symm
          _ ≤ 65534 := hFle
      have hv2 : v * 2 ≤ 65534 := by
        have := Nat.mul_le_mul_left v h2P
        omega
      have hcc65 : code + cnt ≤ 65535 := by
        have h1 : code + cnt ≤ (code + cnt) * 2 * 2 ^ i := by
          have h2 := Nat.le_mul_of_pos_right (code + cnt)
            (Nat.mul_pos (by norm_num : (0:Nat) < 2) hP0)
          rw [← Nat.mul_assoc] at h2
          exact h2
        omega
      have hvdiv : v = (canonFrom rest ((code + cnt) * 2) i + r) / 2 ^ (i + 1) := by
        rw [hv, Nat.mul_comm v, Nat.mul_add_div hP, Nat.div_eq_of_lt hrem, Nat.add_zero]
      have hvge : code + cnt ≤ v := by
        rw [hvdiv]
        have h1 : (code + cnt) * 2 ^ (i + 1) ≤ canonFrom rest ((code + cnt) * 2) i := by
          have e : (code + cnt) * 2 ^ (i + 1) = (code + cnt) * 2 * 2 ^ i := by ring
          rw [e]
          exact hlow
        exact le_trans ((Nat.le_div_iff_mul_le hP).mpr h1)
          (Nat.div_le_div_right (Nat.le_add_right _ _))
      rw [show 32 - (i + 1) = 31 - i from by omega] at hb
      have hb32 : c.bits < 2 ^ 32 := by
        rw [hb]
        calc rem * 2 ^ (31 - i) < 2 ^ (i + 1) * 2 ^ (31 - i) :=
              (Nat.mul_lt_mul_right (pow_pos (by norm_num) _)).mpr hrem
          _ ≤ 2 ^ 32 := by
              rw [← pow_add]
              exact Nat.pow_le_pow_right (by norm_num) (by omega)
      obtain ⟨n, he⟩ := get_bit_empty c hd hb32
      have hsh := shift_register_step rem i (by omega) hrem
      rw [hb] at he
      rw [hsh.1, hsh.2] at he
      have hbit : rem / 2 ^ i < 2 := by
        rw [Nat.div_lt_iff_lt_mul hP0]
        calc rem < 2 ^ (i + 1) := hrem
          _ = 2 * 2 ^ i := by ring
      have hnewv : u16 (v <<< 1 ||| rem / 2 ^ i) = v * 2 + rem / 2 ^ i := by
        rw [Nat.shiftLeft_eq, pow_one, mul_two_or_bit v _ hbit]
        simp only [u16]
        omega
      have hmod : rem % 2 ^ i < 2 ^ i := Nat.mod_lt _ hP0
      have hvinv : canonFrom rest ((code + cnt) * 2) i + r =
          (v * 2 + rem / 2 ^ i) * 2 ^ i + rem % 2 ^ i := by
        have hdm : rem / 2 ^ i * 2 ^ i + rem % 2 ^ i = rem := Nat.div_add_mod' rem (2 ^ i)
        have e : (v * 2 + rem / 2 ^ i) * 2 ^ i =
            v * 2 ^ (i + 1) + rem / 2 ^ i * 2 ^ i := by ring
        omega
      by_cases hcnt : cnt = 0
      · subst hcnt
        simp only [Nat.add_zero, Nat.zero_add] at hs hv hlow hFle hvinv hcc65 hvge ht ⊢
        simp only [huffBuildGo]
        simp only [huffDecodeGo]
        rw [if_neg (by simp)]
        rw [he]
        dsimp only
        have hcode2 : u16 (code <<< 1) = code * 2 := by
          rw [Nat.shiftLeft_eq, pow_one]
          simp only [u16]
          have h1 : code * 2 ≤ code * 2 * 2 ^ i := Nat.le_mul_of_pos_right _ hP0
          omega
        rw [hnewv, hcode2]
        exact ih rest (code * 2) j (v * 2 + rem / 2 ^ i) (rem % 2 ^ i) r syms _
          (by omega) hil' hr hs ht hvinv hmod hd rfl
      · simp only [huffBuildGo]
        rw [if_neg hcnt]
        simp only [huffDecodeGo]
        have hmx : u16 (code + cnt - 1) = code + cnt - 1 := by
          simp only [u16]; omega
        rw [hmx]
        rw [if_neg (by rintro ⟨h1, -⟩; omega)]
        rw [he]
        dsimp only
        have hbc : u16 (u16 (code + cnt) <<< 1) = (code + cnt) * 2 := by
          rw [show u16 (code + cnt) = code + cnt from by simp only [u16]; omega,
              Nat.shiftLeft_eq, pow_one]
          simp only [u16]
          have h2 : (code + cnt) * 2 ≤ (code + cnt) * 2 * 2 ^ i :=
            Nat.le_mul_of_pos_right _ hP0
          omega
        have hpre := getD_le_prefSum i rest hil'
        have hjc : (j + cnt) % 256 = j + cnt := Nat.mod_eq_of_lt (by omega)
        rw [hnewv, hbc, hjc,
            show j + (cnt + prefSum rest i) + r = j + cnt + prefSum rest i + r from by
              omega]
        exact ih rest ((code + cnt) * 2) (j + cnt) (v * 2 + rem / 2 ^ i)
          (rem % 2 ^ i) r syms _ (by omega) hil' hr hs (by omega) hvinv hmod hd rfl

/-- C2 (corrected): the canonical Huffman round-trip. If the 16 length
counts satisfy the Kraft inequality (`kraftW counts 32768 ≤ 65536`), at
most 256 symbols appear up to the target row, and the table is not a
complete code ending exactly at the 16-bit code 0xFFFF (`kraftW < 65536`,
or no 16-bit codes at all) — excluding the sentinel collision — then
feeding the bits of the canonical code of the `r`-th symbol of length
`i+1` into `huff_decode` returns exactly that symbol. -/
theorem c2_huffman_roundtrip (counts syms : List Nat) (i r : Nat)
    (hlen : counts.length = 16)
    (hi : i < 16)
    (hr : r < counts.getD i 0)
    (hkraft : kraftW counts 32768 ≤ 65536)
    (hsent : kraftW counts 32768 < 65536 ∨ counts.getD 15 0 = 0)
    (ht : prefSum counts (i + 1) ≤ 256) :
    (huff_decode (mkHuffCtx counts syms (canonFrom counts 0 i + r) (i + 1)) 0).1 =
      syms.getD (prefSum counts i + r) 0 := by
  have hk := canonFrom_kraft i counts 0 15 (by omega) (by omega)
  rw [show (2:Nat) ^ 15 = 32768 from by norm_num] at hk
  simp only [Nat.zero_mul, Nat.zero_add] at hk
  have hpow : (0:Nat) < 2 ^ (15 - i) := pow_pos (by norm_num) _
  have hk65 : (canonFrom counts 0 i + counts.getD i 0) * 2 ^ (15 - i) ≤ 65536 :=
    le_trans hk hkraft
  have hs : canonFrom counts 0 i + counts.getD i 0 ≤ 65535 := by
    by_cases hi15 : i = 15
    · subst hi15
      rcases hsent with hlt | hz
      · have hk0 : (canonFrom counts 0 15 + counts.getD 15 0) * 2 ^ (15 - 15) ≤ 65535 :=
          le_trans hk (by omega)
        simpa using hk0
      · rw [hz] at hr
        omega
    · have h2 : 2 ≤ 2 ^ (15 - i) := by
        calc (2:Nat) = 2 ^ 1 := (pow_one 2).symm
          _ ≤ 2 ^ (15 - i) := Nat.pow_le_pow_right (by norm_num) (by omega)
      have h3 := Nat.mul_le_mul_left (canonFrom counts 0 i + counts.getD i 0) h2
      omega
  have hC2 : canonFrom counts 0 i + counts.getD i 0 ≤ 2 ^ (i + 1) := by
    apply Nat.le_of_mul_le_mul_right _ hpow
    calc (canonFrom counts 0 i + counts.getD i 0) * 2 ^ (15 - i) ≤ 65536 := hk65
      _ = 2 ^ (i + 1) * 2 ^ (15 - i) := by
          rw [← pow_add, show i + 1 + (15 - i) = 16 from by omega]
          norm_num
  have hClt : canonFrom counts 0 i + r < 2 ^ (i + 1) := by omega
  have hd0 : (mkHuffCtx counts syms (canonFrom counts 0 i + r) (i + 1)).data = [] := rfl
  have hbits : (mkHuffCtx counts syms (canonFrom counts 0 i + r) (i + 1)).bits =
      (canonFrom counts 0 i + r) * 2 ^ (31 - i) := by
    show u32 ((canonFrom counts 0 i + r) <<< (32 - (i + 1))) = _
    rw [Nat.shiftLeft_eq, show 32 - (i + 1) = 31 - i from by omega]
    simp only [u32]
    apply Nat.mod_eq_of_lt
    calc (canonFrom counts 0 i + r) * 2 ^ (31 - i)
        < 2 ^ (i + 1) * 2 ^ (31 - i) :=
          (Nat.mul_lt_mul_right (pow_pos (by norm_num) _)).mpr hClt
      _ ≤ 4294967296 := by
          rw [← pow_add, show (4294967296:Nat) = 2 ^ 32 from by norm_num]
          exact Nat.pow_le_pow_right (by norm_num) (by omega)
  have hb32 : (mkHuffCtx counts syms (canonFrom counts 0 i + r) (i + 1)).bits < 2 ^ 32 := by
    rw [hbits]
    calc (canonFrom counts 0 i + r) * 2 ^ (31 - i)
        < 2 ^ (i + 1) * 2 ^ (31 - i) :=
          (Nat.mul_lt_mul_right (pow_pos (by norm_num) _)).mpr hClt
      _ ≤ 2 ^ 32 := by
          rw [← pow_add]
          exact Nat.pow_le_pow_right (by norm_num) (by omega)
  obtain ⟨n, he⟩ := get_bit_empty _ hd0 hb32
  have hsh := shift_register_step (canonFrom counts 0 i + r) i (by omega) hClt
  rw [hbits] at he
  rw [hsh.1, hsh.2] at he
  unfold huff_decode
  rw [he]
  dsimp only
  rw [show ((mkHuffCtx counts syms (canonFrom counts 0 i + r) (i + 1)).huff.getD 0 []) =
        huffBuildGo counts 0 0 from rfl,
      show ((mkHuffCtx counts syms (canonFrom counts 0 i + r) (i + 1)).huff_val.getD 0 []) =
        syms from rfl]
  conv_rhs => rw [show prefSum counts i + r = 0 + prefSum counts i + r from by omega]
  exact huffDecodeGo_canonical i counts 0 0
    ((canonFrom counts 0 i + r) / 2 ^ i) ((canonFrom counts 0 i + r) % 2 ^ i) r syms
    _ (by omega) (by omega) hr hs (by omega)
    (Nat.div_add_mod' (canonFrom counts 0 i + r) (2 ^ i)).symm
    (Nat.mod_lt _ (pow_pos (by norm_num) _)) hd0 rfl

/-- C2 counterexample: the complete canonical code with length counts
1,1,…,1,2 (Kraft sum exactly 65536 — a valid prefix code with lengths
1..16) assigns the 16-bit code 0xFFFE to symbol 15, but that row's
max_code is 0xFFFF, identical to the empty-row sentinel, so
`huff_decode` skips the row and falls through, returning 0 instead
of 15. -/
theorem c2_counterexample :
    kraftW (List.replicate 15 1 ++ [2]) 32768 = 65536 ∧
    canonFrom (List.replicate 15 1 ++ [2]) 0 15 + 0 = 65534 ∧
    (huff_decode (mkHuffCtx (List.replicate 15 1 ++ [2]) (List.range 17)
        (canonFrom (List.replicate 15 1 ++ [2]) 0 15 + 0) (15 + 1)) 0).1 = 0 ∧
    (List.range 17).getD (prefSum (List.replicate 15 1 ++ [2]) 15 + 0) 0 = 15 ∧
    (0:Nat) ≠ 15 :=
  ⟨by decide, by decide, by decide, by decide, by decide⟩

/-- Witness for `c2_huffman_roundtrip`: the one-row table with two
1-bit codes; the second code (value 1) decodes back to the second
symbol, 20. -/
theorem c2_huffman_roundtrip_witness :
    (huff_decode (mkHuffCtx ([2] ++ List.replicate 15 0) [10, 20]
        (canonFrom ([2] ++ List.replicate 15 0) 0 0 + 1) (0 + 1)) 0).1 =
      [10, 20].getD (prefSum ([2] ++ List.replicate 15 0) 0 + 1) 0 :=
  c2_huffman_roundtrip ([2] ++ List.replicate 15 0) [10, 20] 0 1
    (by decide) (by decide) (by decide) (by decide) (Or.inr (by decide)) (by decide)
